import Mathlib

/-!
Verification development for the reverse stress testing engine
(`reverse_stress_testing.ipynb`).

The numeric pipeline of the notebook is embedded shallowly over `ℝ`:

* `vnorm`           — `np.linalg.norm(w)`;
* `gram_schmidt_rows` — `gram_schmidt_rows(x)`, i.e. the row-wise orthogonal
  factorization `np.linalg.qr(x.T)[0].T`, modelled by the classical
  Gram-Schmidt orthonormalization of the rows (the canonical representative
  of the sign-ambiguous Q factor);
* `p_init`, `eff_idx`, `flip_cols`, `p_from_w` — the transform-matrix builder;
* `ssv_core`, `standard_simplex_vertices` — `standard_simplex_vertices(M)`;
* `quadratic_form_inv` — `quadratic_form_inv(a, x)`;
* `mvn_pdf`           — `scipy.stats.multivariate_normal.pdf(x, mean=0, cov=c)`;
* `comp_scenarios`    — the main procedure `comp_scenarios(c, w, L, q, M)`.

Failures of the Python code (`IndexError` from an empty `nonzero()` result,
shape errors for `M < 2` or `M - 1 > n - 1`) are modelled by `Option`.
`np.linalg.eig` applied to the conditional covariance `dyh`, composed with the
descending `argsort` of the eigenvalues, is an external routine whose output
is only determined up to the choice of eigenbasis; it is modelled by the
explicit parameter `V` of `comp_scenarios`, standing for the column-sorted
eigenvector matrix `vect[:, ind]`.
-/

open scoped BigOperators
open Matrix

noncomputable section

namespace RST

instance finWellFoundedLT (m : ℕ) : WellFoundedLT (Fin m) := inferInstance

/-- `np.linalg.norm(w)`: the Euclidean norm of a vector. -/
def vnorm {n : ℕ} (w : Fin n → ℝ) : ℝ := Real.sqrt (∑ j, w j ^ 2)

/-- `ah = L * cw / w.dot(cw)` with `cw = c.dot(w)`: the central scenario in
original coordinates, which the paper derives as `x* = L·C·w/(w'·C·w)`. -/
def ah {n : ℕ} (c : Matrix (Fin n) (Fin n) ℝ) (w : Fin n → ℝ) (L : ℝ) : Fin n → ℝ :=
  fun i => L * (c *ᵥ w) i / (w ⬝ᵥ (c *ᵥ w))

/-- `j0 = (np.abs(w) > 0.00001).nonzero()[0][0]`: the first index whose weight
exceeds the epsilon `1e-5` in absolute value; `none` models the `IndexError`
raised when no such index exists. -/
def eff_idx {n : ℕ} (w : Fin n → ℝ) : Option (Fin n) :=
  if h : (Finset.univ.filter fun j => 1 / 100000 < |w j|).Nonempty
  then some ((Finset.univ.filter fun j => 1 / 100000 < |w j|).min' h) else none

/-- The initial matrix built inside `p_from_w`: row `0` is `w / ‖w‖`; row
`j+1` holds the standard basis vector `e j` for `j < j0`; row `j` holds `e j`
for `j0 < j`. -/
def p_init {n : ℕ} (w : Fin (n + 1) → ℝ) (j0 : Fin (n + 1)) :
    Matrix (Fin (n + 1)) (Fin (n + 1)) ℝ :=
  fun i k =>
    if i = 0 then w k / vnorm w
    else if i.val ≤ j0.val then (if k.val = i.val - 1 then 1 else 0)
    else (if k = i then 1 else 0)

/-- The index map placing the unit rows of `p_init`: row `i.succ` of
`p_init w j0` is the standard basis vector at this column. -/
def p_init_sigma {n : ℕ} (j0 : Fin (n + 1)) : Fin n → Fin (n + 1) :=
  fun i => if i.val < j0.val then i.castSucc else i.succ

/-- The rows of a matrix, as elements of Euclidean space. -/
def rowsE {m : ℕ} (A : Matrix (Fin m) (Fin m) ℝ) : Fin m → EuclideanSpace ℝ (Fin m) :=
  fun r => A r

/-- The rows produced by the row-wise Gram-Schmidt procedure, as elements of
Euclidean space. -/
def gsRows {m : ℕ} (A : Matrix (Fin m) (Fin m) ℝ) : Fin m → EuclideanSpace ℝ (Fin m) :=
  gramSchmidtNormed ℝ (rowsE A)

/-- `gram_schmidt_rows(x) = np.linalg.qr(x.T)[0].T`: row-wise Gram-Schmidt,
modelled by Mathlib's `gramSchmidtNormed` applied to the rows in order. -/
def gram_schmidt_rows {m : ℕ} (A : Matrix (Fin m) (Fin m) ℝ) :
    Matrix (Fin m) (Fin m) ℝ :=
  fun i j => gsRows A i j

/-- The sign canonicalization loop of `p_from_w`: every column whose row-0
entry is negative is negated. -/
def flip_cols {m m' : ℕ} (B : Matrix (Fin (m + 1)) (Fin m') ℝ) :
    Matrix (Fin (m + 1)) (Fin m') ℝ :=
  fun i j => if B 0 j < 0 then -B i j else B i j

/-- `p_from_w(w)`: the orthonormal transform matrix whose construction is
described in Appendix A of the paper; `none` models the `IndexError` when the
weight vector is effectively zero. -/
def p_from_w {n : ℕ} (w : Fin (n + 1) → ℝ) :
    Option (Matrix (Fin (n + 1)) (Fin (n + 1)) ℝ) :=
  (eff_idx w).map fun j0 => flip_cols (gram_schmidt_rows (p_init w j0))

/-- The centering projector `z = np.eye(M) - 1/M` of `standard_simplex_vertices`. -/
def centerZ (M : ℕ) : Matrix (Fin M) (Fin M) ℝ :=
  fun i j => (if i = j then 1 else 0) - 1 / (M : ℝ)

/-- The auxiliary matrix of `standard_simplex_vertices`:
`a = np.eye(M); a[0, :] = 1`. -/
def onesFirst (M : ℕ) [NeZero M] : Matrix (Fin M) (Fin M) ℝ :=
  fun i j => if i = 0 then 1 else if i = j then 1 else 0

/-- The unscaled simplex matrix of `standard_simplex_vertices(M)`:
`np.delete(p.dot(z), 0, axis=0)[:, cls]` with `p = gram_schmidt_rows(a)` and
the cyclic column reordering `cls = [1, ..., M-1, 0]` (column `j` is taken
from column `j + 1 mod M`). -/
def ssv_pre (M : ℕ) (h : 2 ≤ M) : Matrix (Fin (M - 1)) (Fin M) ℝ :=
  haveI : NeZero M := ⟨by omega⟩
  fun i j =>
    (gram_schmidt_rows (onesFirst M) * centerZ M) ⟨i.val + 1, by have := i.isLt; omega⟩
      (j + 1)

/-- The body of `standard_simplex_vertices(M)` for `M ≥ 2`: orthonormalize the
rows of the matrix `a` (identity with its first row overwritten by ones),
multiply by the centering projector `z = I - 1/M`, delete row `0`, reorder the
columns cyclically by `cls = [1, ..., M-1, 0]`, canonicalize the global sign on
entry `(0,0)`, and scale by `√(M/(M-1))`. -/
def ssv_core (M : ℕ) (h : 2 ≤ M) : Matrix (Fin (M - 1)) (Fin M) ℝ :=
  haveI : NeZero (M - 1) := ⟨by omega⟩
  haveI : NeZero M := ⟨by omega⟩
  let g2 := if ssv_pre M h 0 0 < 0 then -ssv_pre M h else ssv_pre M h
  fun i j => g2 i j * Real.sqrt ((M : ℝ) / ((M : ℝ) - 1))

/-- `standard_simplex_vertices(M)`: vertices of the regular `M`-simplex;
`none` models the division-by-zero and indexing failures for `M < 2`. -/
def standard_simplex_vertices (M : ℕ) : Option (Matrix (Fin (M - 1)) (Fin M) ℝ) :=
  if h : 2 ≤ M then some (ssv_core M h) else none

/-- `quadratic_form_inv(a, x) = x' a⁻¹ x`, computed in the code by a linear
solve; modelled with the exact matrix inverse. -/
def quadratic_form_inv {m : ℕ} (a : Matrix (Fin m) (Fin m) ℝ) (x : Fin m → ℝ) : ℝ :=
  x ⬝ᵥ (a⁻¹ *ᵥ x)

/-- `multivariate_normal.pdf(x, mean=np.zeros(m), cov=c)`: the multivariate
normal density with zero mean. -/
def mvn_pdf {m : ℕ} (c : Matrix (Fin m) (Fin m) ℝ) (x : Fin m → ℝ) : ℝ :=
  Real.exp (-(x ⬝ᵥ (c⁻¹ *ᵥ x)) / 2) / Real.sqrt ((2 * Real.pi) ^ m * c.det)

/-- `dy = p.dot(c.dot(p.T))`: the covariance matrix in the transformed space. -/
def dy_of {n : ℕ} (c p : Matrix (Fin (n + 1)) (Fin (n + 1)) ℝ) :
    Matrix (Fin (n + 1)) (Fin (n + 1)) ℝ :=
  p * c * pᵀ

/-- `d11 = dy[0, 0]`. -/
def d11_of {n : ℕ} (c p : Matrix (Fin (n + 1)) (Fin (n + 1)) ℝ) : ℝ :=
  dy_of c p 0 0

/-- `dI1 = dy[1:, 0]`. -/
def dI1_of {n : ℕ} (c p : Matrix (Fin (n + 1)) (Fin (n + 1)) ℝ) : Fin n → ℝ :=
  fun i => dy_of c p i.succ 0

/-- `dyh = dII - dI1·dI1' / d11`: the Schur-complement conditional covariance,
with `dII = dy[1:, 1:]`. -/
def dyh_of {n : ℕ} (c p : Matrix (Fin (n + 1)) (Fin (n + 1)) ℝ) :
    Matrix (Fin n) (Fin n) ℝ :=
  fun i j => dy_of c p i.succ j.succ - dI1_of c p i * dI1_of c p j / d11_of c p

/-- `ahy = L * dI1 / d11 / wn`: the conditional center in transformed space. -/
def ahy_of {n : ℕ} (c : Matrix (Fin (n + 1)) (Fin (n + 1)) ℝ) (w : Fin (n + 1) → ℝ)
    (L : ℝ) (p : Matrix (Fin (n + 1)) (Fin (n + 1)) ℝ) : Fin n → ℝ :=
  fun i => L * dI1_of c p i / d11_of c p / vnorm w

/-- `r = np.sqrt(-2 * np.log(q) / quadratic_form_inv(dyh, z_last))`. -/
def radius {m : ℕ} (q : ℝ) (dyh : Matrix (Fin m) (Fin m) ℝ) (zl : Fin m → ℝ) : ℝ :=
  Real.sqrt (-2 * Real.log q / quadratic_form_inv dyh zl)

/-- `z = V[:, :(M-1)].dot(t)` with `t = standard_simplex_vertices(M)`: the
simplex vertices rotated into the selected top-eigenvector subspace. -/
def zm_of (n M : ℕ) (V : Matrix (Fin n) (Fin n) ℝ) (h1 : 2 ≤ M) (h2 : M - 1 ≤ n) :
    Matrix (Fin n) (Fin M) ℝ :=
  fun i j => ∑ k, V i (Fin.castLE h2 k) * ssv_core M h1 k j

/-- `z_last = z[:, -1]`: the last rotated simplex vertex. -/
def zlast_of (n M : ℕ) (V : Matrix (Fin n) (Fin n) ℝ) (h1 : 2 ≤ M) (h2 : M - 1 ≤ n) :
    Fin n → ℝ :=
  fun i => zm_of n M V h1 h2 i ⟨M - 1, by omega⟩

/-- The transformed-space scenario table `df`: row `0` is the constant
`first_comp` row (`df0`), column `0` below row `0` is `ahy`, and the remaining
block is `rz = r * z + ahyr`. -/
def df_of (n M : ℕ) (fc : ℝ) (ahy : Fin n → ℝ) (rz : Matrix (Fin n) (Fin M) ℝ) :
    Matrix (Fin (n + 1)) (Fin (M + 1)) ℝ :=
  Fin.cons (fun _ => fc) (fun i2 => Fin.cons (ahy i2) (fun j2 => rz i2 j2))

/-- The body of `comp_scenarios` once the transform matrix `p` is available
and the shapes fit: computes the radius, assembles the transformed-space
table, rotates back with `p.T`, and forms the relative likelihood vector. -/
def comp_core (n : ℕ) (c : Matrix (Fin (n + 1)) (Fin (n + 1)) ℝ)
    (w : Fin (n + 1) → ℝ) (L q : ℝ) (M : ℕ) (V : Matrix (Fin n) (Fin n) ℝ)
    (p : Matrix (Fin (n + 1)) (Fin (n + 1)) ℝ) (h1 : 2 ≤ M) (h2 : M - 1 ≤ n) :
    Matrix (Fin (n + 1)) (Fin (M + 1)) ℝ × (Fin (M + 1) → ℝ) :=
  let zm := zm_of n M V h1 h2
  let r := radius q (dyh_of c p) (zlast_of n M V h1 h2)
  let fc := (p *ᵥ ah c w L) 0
  let scen := pᵀ * df_of n M fc (ahy_of c w L p)
    (fun i j => r * zm i j + ahy_of c w L p i)
  (scen, fun j => mvn_pdf c (fun i => scen i j) / mvn_pdf c (fun i => scen i 0))

/-- `comp_scenarios(c, w, L, q, M)`: the main procedure.  `V` models the
eigenvector matrix of `dyh` with columns sorted by descending eigenvalue
(`vals, vect = np.linalg.eig(dyh); V = vect[:, vals.argsort()[::-1]]`).
Returns the scenario matrix (columns `Scenario_0 .. Scenario_M`) together
with the relative likelihood vector; `none` models the exceptions raised for
an effectively zero weight vector, for `M < 2`, and for the shape mismatch
`M - 1 > n - 1` in `V[:, :(M-1)].dot(t)`. -/
def comp_scenarios (n : ℕ) (c : Matrix (Fin (n + 1)) (Fin (n + 1)) ℝ)
    (w : Fin (n + 1) → ℝ) (L q : ℝ) (M : ℕ) (V : Matrix (Fin n) (Fin n) ℝ) :
    Option (Matrix (Fin (n + 1)) (Fin (M + 1)) ℝ × (Fin (M + 1) → ℝ)) :=
  match p_from_w w with
  | none => none
  | some p =>
    if h : 2 ≤ M ∧ M - 1 ≤ n then
      some (comp_core n c w L q M V p h.1 h.2)
    else none

/-- The central scenario (column `Scenario_0`) of the result of
`comp_scenarios`, when the call succeeds. -/
def scen0 (n : ℕ) (c : Matrix (Fin (n + 1)) (Fin (n + 1)) ℝ) (w : Fin (n + 1) → ℝ)
    (L q : ℝ) (M : ℕ) (V : Matrix (Fin n) (Fin n) ℝ) : Option (Fin (n + 1) → ℝ) :=
  (comp_scenarios n c w L q M V).map fun R i => R.1 i 0

/-- Entry `j` of the likelihood vector returned by `comp_scenarios`, when the
call succeeds. -/
def lik_at (n : ℕ) (c : Matrix (Fin (n + 1)) (Fin (n + 1)) ℝ) (w : Fin (n + 1) → ℝ)
    (L q : ℝ) (M : ℕ) (V : Matrix (Fin n) (Fin n) ℝ) (j : Fin (M + 1)) : Option ℝ :=
  (comp_scenarios n c w L q M V).map fun R => R.2 j

/-! ### Euclidean space bridging lemmas -/

theorem esum_apply {m N : ℕ} (f : Fin N → EuclideanSpace ℝ (Fin m)) (k : Fin m) :
    (∑ i, f i) k = ∑ i, f i k :=
  Finset.sum_apply k Finset.univ (fun i => f i)

theorem inner_euclidean {m : ℕ} (x y : EuclideanSpace ℝ (Fin m)) :
    (inner x y : ℝ) = ∑ j, x j * y j := by
  simp [PiLp.inner_apply, RCLike.inner_apply, conj_trivial]

theorem vnorm_eq_norm {m : ℕ} (w : Fin m → ℝ) :
    vnorm w = ‖(show EuclideanSpace ℝ (Fin m) from w)‖ := by
  rw [EuclideanSpace.norm_eq, vnorm]
  congr 1
  simp [Real.norm_eq_abs, sq_abs]

theorem vnorm_pos {m : ℕ} (w : Fin m → ℝ) (j : Fin m) (hj : w j ≠ 0) : 0 < vnorm w := by
  rw [vnorm]
  apply Real.sqrt_pos.mpr
  have hterm : 0 < w j ^ 2 := by positivity
  refine lt_of_lt_of_le hterm ?_
  exact Finset.single_le_sum (fun i _ => sq_nonneg (w i)) (Finset.mem_univ j)

theorem sq_vnorm {m : ℕ} (w : Fin m → ℝ) : vnorm w ^ 2 = ∑ j, w j ^ 2 := by
  rw [vnorm, Real.sq_sqrt]
  exact Finset.sum_nonneg fun i _ => sq_nonneg (w i)

/-! ### Orthonormality of the Gram-Schmidt rows -/

theorem rows_orthonormal_mul_transpose {m : ℕ} {A : Matrix (Fin m) (Fin m) ℝ}
    (h : Orthonormal ℝ (rowsE A)) : A * Aᵀ = 1 := by
  ext i k
  have hik := orthonormal_iff_ite.mp h i k
  rw [inner_euclidean] at hik
  simpa [Matrix.mul_apply, Matrix.transpose_apply, Matrix.one_apply, rowsE] using hik

theorem gsRows_orthonormal {m : ℕ} {A : Matrix (Fin m) (Fin m) ℝ}
    (h : LinearIndependent ℝ (rowsE A)) : Orthonormal ℝ (gsRows A) := by
  unfold gsRows
  exact gramSchmidt_orthonormal h

theorem gram_schmidt_rows_mul_transpose {m : ℕ} {A : Matrix (Fin m) (Fin m) ℝ}
    (h : LinearIndependent ℝ (rowsE A)) :
    gram_schmidt_rows A * (gram_schmidt_rows A)ᵀ = 1 :=
  rows_orthonormal_mul_transpose (gsRows_orthonormal h)

theorem flip_cols_mul_transpose {m : ℕ} (B : Matrix (Fin (m + 1)) (Fin (m + 1)) ℝ)
    (h : B * Bᵀ = 1) : flip_cols B * (flip_cols B)ᵀ = 1 := by
  have key : ∀ i k, ∑ j, flip_cols B i j * flip_cols B k j = ∑ j, B i j * B k j := by
    intro i k
    refine Finset.sum_congr rfl fun j _ => ?_
    unfold flip_cols
    split <;> ring
  ext i k
  have hik := congrFun (congrFun h i) k
  simp only [Matrix.mul_apply, Matrix.transpose_apply] at hik ⊢
  rw [key i k]
  exact hik

/-! ### Linear independence of the initial matrices -/

theorem rows_li {m : ℕ} (A : Matrix (Fin (m + 1)) (Fin (m + 1)) ℝ)
    (k0 : Fin (m + 1)) (σ : Fin m → Fin (m + 1))
    (hinj : Function.Injective σ) (hk0 : ∀ i, σ i ≠ k0)
    (h0 : A 0 k0 ≠ 0)
    (hrow : ∀ (i : Fin m) (k : Fin (m + 1)), A i.succ k = if k = σ i then 1 else 0) :
    LinearIndependent ℝ (rowsE A) := by
  rw [Fintype.linearIndependent_iff]
  intro g hg
  have happ : ∀ k, ∑ i, g i * A i k = 0 := by
    intro k
    have h1 := congrArg (fun v : EuclideanSpace ℝ (Fin (m + 1)) => v k) hg
    simp only [esum_apply, PiLp.smul_apply, PiLp.zero_apply, smul_eq_mul, rowsE] at h1
    exact h1
  have hg0 : g 0 = 0 := by
    have h1 := happ k0
    rw [Fin.sum_univ_succ] at h1
    have hrest : ∀ i : Fin m, g i.succ * A i.succ k0 = 0 := by
      intro i
      rw [hrow i k0, if_neg]
      · ring
      · intro hc
        exact hk0 i hc.symm
    rw [Finset.sum_congr rfl (fun i _ => hrest i), Finset.sum_const, smul_zero,
      add_zero] at h1
    exact (mul_eq_zero.mp h1).resolve_right h0
  intro i
  refine Fin.cases hg0 (fun i2 => ?_) i
  have h1 := happ (σ i2)
  rw [Fin.sum_univ_succ, hg0, zero_mul, zero_add] at h1
  have hterm : ∀ i3 : Fin m, g i3.succ * A i3.succ (σ i2) =
      if i3 = i2 then g i3.succ else 0 := by
    intro i3
    rw [hrow i3 (σ i2)]
    by_cases hc : i3 = i2
    · subst hc
      simp
    · rw [if_neg, if_neg hc]
      · ring
      · intro hc2
        exact hc (hinj hc2.symm)
  rw [Finset.sum_congr rfl (fun i3 _ => hterm i3), Finset.sum_ite_eq' Finset.univ i2]
    at h1
  simpa using h1

theorem p_init_sigma_inj {n : ℕ} (j0 : Fin (n + 1)) :
    Function.Injective (p_init_sigma j0) := by
  intro a b hab
  have h1 := congrArg Fin.val hab
  unfold p_init_sigma at h1
  apply Fin.ext
  split at h1 <;> split at h1 <;>
    simp only [Fin.coe_castSucc, Fin.val_succ] at * <;> omega

theorem p_init_sigma_ne {n : ℕ} (j0 : Fin (n + 1)) (i : Fin n) :
    p_init_sigma j0 i ≠ j0 := by
  intro hc
  have h1 := congrArg Fin.val hc
  unfold p_init_sigma at h1
  split at h1 <;> simp only [Fin.coe_castSucc, Fin.val_succ] at h1 <;> omega

theorem p_init_row_succ {n : ℕ} (w : Fin (n + 1) → ℝ) (j0 : Fin (n + 1))
    (i : Fin n) (k : Fin (n + 1)) :
    p_init w j0 i.succ k = if k = p_init_sigma j0 i then 1 else 0 := by
  unfold p_init p_init_sigma
  rw [if_neg (Fin.succ_ne_zero i)]
  rcases lt_or_le i.val j0.val with hlt | hle
  · rw [if_pos (by simp only [Fin.val_succ]; omega), if_pos hlt]
    have hiff : k.val = i.succ.val - 1 ↔ k = i.castSucc := by
      rw [Fin.val_succ, Nat.add_sub_cancel]
      constructor
      · intro h2
        apply Fin.ext
        simpa using h2
      · intro h2
        subst h2
        simp
    simp only [Fin.val_succ] at hiff ⊢
    rw [if_congr hiff rfl rfl]
  · rw [if_neg (by simp only [Fin.val_succ]; omega), if_neg (not_lt.mpr hle)]

theorem p_init_li {n : ℕ} (w : Fin (n + 1) → ℝ) (j0 : Fin (n + 1))
    (hj0 : w j0 ≠ 0) : LinearIndependent ℝ (rowsE (p_init w j0)) := by
  refine rows_li _ j0 (p_init_sigma j0) (p_init_sigma_inj j0) (p_init_sigma_ne j0)
    ?_ (p_init_row_succ w j0)
  unfold p_init
  rw [if_pos rfl]
  exact div_ne_zero hj0 (ne_of_gt (vnorm_pos w j0 hj0))

/-! ### Behaviour of `eff_idx` and `p_from_w` -/

theorem eff_idx_eq_some {n : ℕ} {w : Fin n → ℝ} {j0 : Fin n} (h : eff_idx w = some j0) :
    1 / 100000 < |w j0| := by
  unfold eff_idx at h
  split at h
  · rename_i hne
    have hmem := Finset.min'_mem _ hne
    have hj0 := Option.some.inj h
    rw [hj0] at hmem
    exact (Finset.mem_filter.mp hmem).2
  · exact absurd h (by simp)

theorem eff_idx_ne_zero {n : ℕ} {w : Fin n → ℝ} {j0 : Fin n}
    (h : eff_idx w = some j0) : w j0 ≠ 0 := by
  intro hc
  have h1 := eff_idx_eq_some h
  rw [hc] at h1
  simp at h1
  norm_num at h1

theorem eff_idx_none_iff {n : ℕ} (w : Fin n → ℝ) :
    eff_idx w = none ↔ ∀ j, |w j| ≤ 1 / 100000 := by
  unfold eff_idx
  constructor
  · intro h j
    split at h
    · exact absurd h (by simp)
    · rename_i hne
      by_contra hc
      exact hne ⟨j, Finset.mem_filter.mpr ⟨Finset.mem_univ j, not_le.mp hc⟩⟩
  · intro hall
    rw [dif_neg]
    intro hne
    obtain ⟨j, hj⟩ := hne
    exact absurd (Finset.mem_filter.mp hj).2 (not_lt.mpr (hall j))

theorem eff_idx_exists_of_big {n : ℕ} (w : Fin n → ℝ) (j : Fin n)
    (hj : 1 / 100000 < |w j|) : ∃ j0, eff_idx w = some j0 := by
  unfold eff_idx
  rw [dif_pos ⟨j, Finset.mem_filter.mpr ⟨Finset.mem_univ j, hj⟩⟩]
  exact ⟨_, rfl⟩

theorem p_from_w_eq {n : ℕ} {w : Fin (n + 1) → ℝ}
    {P : Matrix (Fin (n + 1)) (Fin (n + 1)) ℝ} (h : p_from_w w = some P) :
    ∃ j0, eff_idx w = some j0 ∧ P = flip_cols (gram_schmidt_rows (p_init w j0)) := by
  unfold p_from_w at h
  rw [Option.map_eq_some'] at h
  obtain ⟨j0, hj0, hP⟩ := h
  exact ⟨j0, hj0, hP.symm⟩

theorem p_from_w_none_iff {n : ℕ} (w : Fin (n + 1) → ℝ) :
    p_from_w w = none ↔ ∀ j, |w j| ≤ 1 / 100000 := by
  unfold p_from_w
  rw [Option.map_eq_none']
  exact eff_idx_none_iff w

theorem p_from_w_exists_of_big {n : ℕ} (w : Fin (n + 1) → ℝ) (j : Fin (n + 1))
    (hj : 1 / 100000 < |w j|) : ∃ P, p_from_w w = some P := by
  obtain ⟨j0, hj0⟩ := eff_idx_exists_of_big w j hj
  exact ⟨_, by unfold p_from_w; rw [hj0]; rfl⟩

theorem p_from_w_mul_transpose {n : ℕ} {w : Fin (n + 1) → ℝ}
    {P : Matrix (Fin (n + 1)) (Fin (n + 1)) ℝ} (h : p_from_w w = some P) :
    P * Pᵀ = 1 := by
  obtain ⟨j0, hj0, hP⟩ := p_from_w_eq h
  subst hP
  exact flip_cols_mul_transpose _
    (gram_schmidt_rows_mul_transpose (p_init_li w j0 (eff_idx_ne_zero hj0)))

theorem p_from_w_transpose_mul {n : ℕ} {w : Fin (n + 1) → ℝ}
    {P : Matrix (Fin (n + 1)) (Fin (n + 1)) ℝ} (h : p_from_w w = some P) :
    Pᵀ * P = 1 :=
  Matrix.mul_eq_one_comm.mp (p_from_w_mul_transpose h)

/-! ### Row 0 of the transform matrix -/

theorem gramSchmidt_fin_zero {m : ℕ} (f : Fin (m + 1) → EuclideanSpace ℝ (Fin (m + 1))) :
    gramSchmidt ℝ f 0 = f 0 := by
  rw [gramSchmidt_def]
  have he : Finset.Iio (0 : Fin (m + 1)) = ∅ := by
    apply Finset.eq_empty_of_forall_not_mem
    intro x hx
    exact Fin.not_lt_zero x (Finset.mem_Iio.mp hx)
  rw [he, Finset.sum_empty, sub_zero]

theorem gsRows_zero {m : ℕ} (A : Matrix (Fin (m + 1)) (Fin (m + 1)) ℝ) :
    gsRows A 0 = ‖rowsE A 0‖⁻¹ • rowsE A 0 := by
  unfold gsRows
  unfold gramSchmidtNormed
  rw [gramSchmidt_fin_zero]
  norm_num [RCLike.ofReal_real_eq_id]

theorem norm_p_init_row_zero {n : ℕ} (w : Fin (n + 1) → ℝ) (j0 : Fin (n + 1))
    (hw : w j0 ≠ 0) : ‖rowsE (p_init w j0) 0‖ = 1 := by
  have hv : 0 < vnorm w := vnorm_pos w j0 hw
  have hrow : rowsE (p_init w j0) 0 =
      (show EuclideanSpace ℝ (Fin (n + 1)) from fun k => w k / vnorm w) := by
    unfold rowsE p_init
    simp
  rw [hrow, ← vnorm_eq_norm, vnorm]
  have : ∀ k : Fin (n + 1), (w k / vnorm w) ^ 2 = w k ^ 2 / vnorm w ^ 2 := by
    intro k
    rw [div_pow]
  rw [Finset.sum_congr rfl fun k _ => this k, ← Finset.sum_div, ← sq_vnorm w,
    div_self (by positivity), Real.sqrt_one]

theorem gs_p_init_row_zero {n : ℕ} (w : Fin (n + 1) → ℝ) (j0 : Fin (n + 1))
    (hw : w j0 ≠ 0) (j : Fin (n + 1)) :
    gram_schmidt_rows (p_init w j0) 0 j = w j / vnorm w := by
  unfold gram_schmidt_rows
  rw [gsRows_zero, norm_p_init_row_zero w j0 hw]
  norm_num
  unfold rowsE p_init
  simp

theorem p_from_w_row0_abs {n : ℕ} {w : Fin (n + 1) → ℝ}
    {P : Matrix (Fin (n + 1)) (Fin (n + 1)) ℝ} (h : p_from_w w = some P)
    (j : Fin (n + 1)) : P 0 j = |w j| / vnorm w := by
  obtain ⟨j0, hj0, hP⟩ := p_from_w_eq h
  have hw := eff_idx_ne_zero hj0
  have hv : 0 < vnorm w := vnorm_pos w j0 hw
  subst hP
  unfold flip_cols
  rw [gs_p_init_row_zero w j0 hw j]
  rcases lt_or_le (w j / vnorm w) 0 with hneg | hpos
  · rw [if_pos hneg]
    have : w j < 0 := by
      by_contra hc
      exact absurd (div_nonneg (not_lt.mp hc) (le_of_lt hv)) (not_le.mpr hneg)
    rw [abs_of_neg this]
    ring
  · rw [if_neg (not_lt.mpr hpos)]
    have : 0 ≤ w j := by
      by_contra hc
      have : w j / vnorm w < 0 := div_neg_of_neg_of_pos (not_le.mp hc) hv
      exact absurd hpos (not_le.mpr this)
    rw [abs_of_nonneg this]

/-! ### Concrete evaluation support for the Gram-Schmidt pipeline -/

theorem norm_euclidean {m : ℕ} (x : EuclideanSpace ℝ (Fin m)) :
    ‖x‖ = Real.sqrt (∑ j, x j ^ 2) := by
  rw [EuclideanSpace.norm_eq]
  congr 1
  simp [Real.norm_eq_abs, sq_abs]

theorem norm_sq_euclidean {m : ℕ} (x : EuclideanSpace ℝ (Fin m)) :
    ‖x‖ ^ 2 = ∑ j, x j ^ 2 := by
  rw [norm_euclidean, Real.sq_sqrt (Finset.sum_nonneg fun i _ => sq_nonneg _)]

theorem gsRows_eq_normalize {m : ℕ} (A : Matrix (Fin m) (Fin m) ℝ) (i : Fin m) :
    gsRows A i = ‖gramSchmidt ℝ (rowsE A) i‖⁻¹ • gramSchmidt ℝ (rowsE A) i := by
  unfold gsRows gramSchmidtNormed
  norm_num [RCLike.ofReal_real_eq_id]

theorem gram_schmidt_rows_of_orthonormal {m : ℕ} (A : Matrix (Fin m) (Fin m) ℝ)
    (horth : Pairwise fun i j => (inner (rowsE A i) (rowsE A j) : ℝ) = 0)
    (hnorm : ∀ i, ‖rowsE A i‖ = 1) :
    gram_schmidt_rows A = A := by
  funext i j
  unfold gram_schmidt_rows gsRows gramSchmidtNormed
  rw [gramSchmidt_of_orthogonal ℝ horth, hnorm i]
  norm_num [RCLike.ofReal_real_eq_id]
  rfl

theorem gramSchmidt_one_fin2 (f : Fin 2 → EuclideanSpace ℝ (Fin 2)) :
    gramSchmidt ℝ f 1 = f 1 - ((inner (f 0) (f 1) : ℝ) / ‖f 0‖ ^ 2) • f 0 := by
  rw [gramSchmidt_def]
  have h1 : Finset.Iio (1 : Fin 2) = {0} := by decide
  rw [h1, Finset.sum_singleton, gramSchmidt_fin_zero, orthogonalProjection_singleton]
  norm_num [RCLike.ofReal_real_eq_id]

theorem gramSchmidt_one_fin3 (f : Fin 3 → EuclideanSpace ℝ (Fin 3)) :
    gramSchmidt ℝ f 1 = f 1 - ((inner (f 0) (f 1) : ℝ) / ‖f 0‖ ^ 2) • f 0 := by
  rw [gramSchmidt_def]
  have h1 : Finset.Iio (1 : Fin 3) = {0} := by decide
  rw [h1, Finset.sum_singleton, gramSchmidt_fin_zero, orthogonalProjection_singleton]
  norm_num [RCLike.ofReal_real_eq_id]

theorem gramSchmidt_two_fin3 (f : Fin 3 → EuclideanSpace ℝ (Fin 3)) :
    gramSchmidt ℝ f 2 =
      f 2 - ((inner (f 0) (f 2) : ℝ) / ‖f 0‖ ^ 2) • f 0
        - ((inner (gramSchmidt ℝ f 1) (f 2) : ℝ) / ‖gramSchmidt ℝ f 1‖ ^ 2) •
            gramSchmidt ℝ f 1 := by
  rw [gramSchmidt_def]
  have h1 : Finset.Iio (2 : Fin 3) = {0, 1} := by decide
  rw [h1, Finset.sum_pair (by decide : (0 : Fin 3) ≠ 1), gramSchmidt_fin_zero,
    orthogonalProjection_singleton, orthogonalProjection_singleton]
  rw [sub_add_eq_sub_sub]
  norm_num [RCLike.ofReal_real_eq_id]

theorem eff_idx_zero {n : ℕ} (w : Fin (n + 1) → ℝ) (h : 1 / 100000 < |w 0|) :
    eff_idx w = some 0 := by
  unfold eff_idx
  have hmem : (0 : Fin (n + 1)) ∈ Finset.univ.filter fun j => 1 / 100000 < |w j| :=
    Finset.mem_filter.mpr ⟨Finset.mem_univ _, h⟩
  rw [dif_pos ⟨0, hmem⟩]
  congr 1
  exact le_antisymm (Finset.min'_le _ _ hmem) (Fin.zero_le _)

theorem p_from_w_explicit {n : ℕ} (w : Fin (n + 1) → ℝ) (h : 1 / 100000 < |w 0|) :
    p_from_w w = some (flip_cols (gram_schmidt_rows (p_init w 0))) := by
  unfold p_from_w
  rw [eff_idx_zero w h]
  rfl

/-! ### Evaluating `p_from_w` on concrete two-dimensional weights -/

theorem p_init_two (a b : ℝ) :
    p_init ![a, b] 0 = ![![a / vnorm ![a, b], b / vnorm ![a, b]], ![0, 1]] := by
  funext i k
  fin_cases i <;> fin_cases k <;> simp [p_init]

theorem sq_vnorm_two (a b : ℝ) : vnorm ![a, b] ^ 2 = a ^ 2 + b ^ 2 := by
  rw [sq_vnorm, Fin.sum_univ_two]
  simp

theorem vnorm_two_pos (a b : ℝ) (ha : a ≠ 0) : 0 < vnorm ![a, b] :=
  vnorm_pos ![a, b] 0 (by simpa using ha)

theorem gsRows_p_init_two_one (a b : ℝ) (ha : a ≠ 0) :
    gsRows (p_init ![a, b] 0) 1 =
      (show EuclideanSpace ℝ (Fin 2) from
        ![-(a * b) / (|a| * vnorm ![a, b]), a ^ 2 / (|a| * vnorm ![a, b])]) := by
  have hs : 0 < vnorm ![a, b] := vnorm_two_pos a b ha
  have hs2 : vnorm ![a, b] ^ 2 = a ^ 2 + b ^ 2 := sq_vnorm_two a b
  have hf0 : rowsE (p_init ![a, b] 0) 0 =
      (show EuclideanSpace ℝ (Fin 2) from ![a / vnorm ![a, b], b / vnorm ![a, b]]) := by
    unfold rowsE
    rw [p_init_two]
    simp
  have hf1 : rowsE (p_init ![a, b] 0) 1 =
      (show EuclideanSpace ℝ (Fin 2) from ![0, 1]) := by
    unfold rowsE
    rw [p_init_two]
    simp
  rw [gsRows_eq_normalize, gramSchmidt_one_fin2, hf0, hf1]
  have hinner : (inner (show EuclideanSpace ℝ (Fin 2) from ![a / vnorm ![a, b], b / vnorm ![a, b]])
      (show EuclideanSpace ℝ (Fin 2) from ![0, 1]) : ℝ) = b / vnorm ![a, b] := by
    rw [inner_euclidean, Fin.sum_univ_two]
    simp
  have hnorm0 : ‖(show EuclideanSpace ℝ (Fin 2) from
      ![a / vnorm ![a, b], b / vnorm ![a, b]])‖ ^ 2 = 1 := by
    rw [norm_sq_euclidean, Fin.sum_univ_two]
    simp only [Matrix.cons_val_zero, Matrix.cons_val_one, Matrix.head_cons]
    rw [div_pow, div_pow, div_add_div_same, ← hs2]
    exact div_self (by positivity)
  rw [hinner, hnorm0]
  have hsne : vnorm ![a, b] ≠ 0 := ne_of_gt hs
  have hg : (show EuclideanSpace ℝ (Fin 2) from ![0, 1]) -
      (b / vnorm ![a, b] / 1) • (show EuclideanSpace ℝ (Fin 2) from
        ![a / vnorm ![a, b], b / vnorm ![a, b]]) =
      (show EuclideanSpace ℝ (Fin 2) from
        ![-(a * b) / vnorm ![a, b] ^ 2, a ^ 2 / vnorm ![a, b] ^ 2]) := by
    funext j
    fin_cases j
    · simp only [PiLp.sub_apply, PiLp.smul_apply, smul_eq_mul, Matrix.cons_val_zero,
        Matrix.cons_val_one, Matrix.head_cons, div_one]
      field_simp
      ring
    · simp only [PiLp.sub_apply, PiLp.smul_apply, smul_eq_mul, Matrix.cons_val_zero,
        Matrix.cons_val_one, Matrix.head_cons, div_one]
      field_simp
      linear_combination vnorm ![a, b] ^ 2 * hs2
  rw [hg]
  have hnr : ‖(show EuclideanSpace ℝ (Fin 2) from
      ![-(a * b) / vnorm ![a, b] ^ 2, a ^ 2 / vnorm ![a, b] ^ 2])‖ =
      |a| / vnorm ![a, b] := by
    rw [norm_euclidean, Fin.sum_univ_two]
    simp only [Matrix.cons_val_zero, Matrix.cons_val_one, Matrix.head_cons]
    have hx : (-(a * b) / vnorm ![a, b] ^ 2) ^ 2 + (a ^ 2 / vnorm ![a, b] ^ 2) ^ 2 =
        (|a| / vnorm ![a, b]) ^ 2 := by
      rw [div_pow, div_pow, div_add_div_same, div_pow, sq_abs]
      rw [show (-(a * b)) ^ 2 + (a ^ 2) ^ 2 = a ^ 2 * (a ^ 2 + b ^ 2) by ring, ← hs2]
      rw [show (vnorm ![a, b] ^ 2) ^ 2 = vnorm ![a, b] ^ 2 * vnorm ![a, b] ^ 2 by ring]
      rw [mul_comm (a ^ 2) (vnorm ![a, b] ^ 2)]
      rw [mul_div_mul_left]
      positivity
    rw [hx, Real.sqrt_sq (by positivity)]
  rw [hnr]
  funext j
  have hap : 0 < |a| := abs_pos.mpr ha
  fin_cases j <;>
    simp only [PiLp.smul_apply, smul_eq_mul, Matrix.cons_val_zero, Matrix.cons_val_one,
      Matrix.head_cons] <;>
    rw [show (|a| / vnorm ![a, b])⁻¹ = vnorm ![a, b] / |a| by
      rw [inv_div]] <;>
    field_simp <;> ring

theorem gram_schmidt_rows_p_init_two (a b : ℝ) (ha : a ≠ 0) :
    gram_schmidt_rows (p_init ![a, b] 0) =
      ![![a / vnorm ![a, b], b / vnorm ![a, b]],
        ![-(a * b) / (|a| * vnorm ![a, b]), a ^ 2 / (|a| * vnorm ![a, b])]] := by
  have ha0 : (![a, b] : Fin 2 → ℝ) 0 ≠ 0 := by simpa using ha
  funext i j
  fin_cases i
  · have h0 := gs_p_init_row_zero ![a, b] 0 ha0 j
    simp only [Fin.zero_eta]
    rw [h0]
    fin_cases j <;> simp
  · have h1 := congrFun (gsRows_p_init_two_one a b ha) j
    simp only [Fin.mk_one]
    unfold gram_schmidt_rows
    rw [h1]
    fin_cases j <;> simp

theorem vnorm_34 : vnorm ![(3 : ℝ), 4] = 5 := by
  unfold vnorm
  rw [Fin.sum_univ_two]
  norm_num
  rw [show (25 : ℝ) = 5 ^ 2 by norm_num, Real.sqrt_sq (by norm_num)]

theorem vnorm_m34 : vnorm ![(-3 : ℝ), 4] = 5 := by
  unfold vnorm
  rw [Fin.sum_univ_two]
  norm_num
  rw [show (25 : ℝ) = 5 ^ 2 by norm_num, Real.sqrt_sq (by norm_num)]

theorem vnorm_m3m4 : vnorm ![(-3 : ℝ), -4] = 5 := by
  unfold vnorm
  rw [Fin.sum_univ_two]
  norm_num
  rw [show (25 : ℝ) = 5 ^ 2 by norm_num, Real.sqrt_sq (by norm_num)]

theorem EVP34 : p_from_w ![(3 : ℝ), 4] = some ![![3 / 5, 4 / 5], ![-(4 / 5), 3 / 5]] := by
  rw [p_from_w_explicit _ (by norm_num)]
  congr 1
  rw [gram_schmidt_rows_p_init_two 3 4 (by norm_num), vnorm_34]
  funext i j
  unfold flip_cols
  fin_cases i <;> fin_cases j <;> norm_num

theorem EVPm34 : p_from_w ![(-3 : ℝ), 4] = some ![![3 / 5, 4 / 5], ![-(4 / 5), 3 / 5]] := by
  rw [p_from_w_explicit _ (by norm_num)]
  congr 1
  rw [gram_schmidt_rows_p_init_two (-3) 4 (by norm_num), vnorm_m34]
  funext i j
  unfold flip_cols
  fin_cases i <;> fin_cases j <;> norm_num

theorem EVPm3m4 : p_from_w ![(-3 : ℝ), -4] = some ![![3 / 5, 4 / 5], ![4 / 5, -(3 / 5)]] := by
  rw [p_from_w_explicit _ (by norm_num)]
  congr 1
  rw [gram_schmidt_rows_p_init_two (-3) (-4) (by norm_num), vnorm_m3m4]
  funext i j
  unfold flip_cols
  fin_cases i <;> fin_cases j <;> norm_num

/-! ### Weight vectors aligned with the first axis give the identity transform -/

theorem rowsE_one_orth {m : ℕ} :
    Pairwise fun i j => (inner (rowsE (1 : Matrix (Fin m) (Fin m) ℝ) i)
      (rowsE (1 : Matrix (Fin m) (Fin m) ℝ) j) : ℝ) = 0 := by
  intro i j hij
  rw [inner_euclidean]
  unfold rowsE
  simp [Matrix.one_apply, Finset.sum_ite_eq, hij]

theorem rowsE_one_norm {m : ℕ} (i : Fin m) :
    ‖rowsE (1 : Matrix (Fin m) (Fin m) ℝ) i‖ = 1 := by
  rw [norm_euclidean]
  unfold rowsE
  have h1 : ∑ j, ((1 : Matrix (Fin m) (Fin m) ℝ) i j) ^ 2 = 1 := by
    simp [Matrix.one_apply, sq, Finset.sum_ite_eq]
  rw [h1, Real.sqrt_one]

theorem gram_schmidt_rows_one {m : ℕ} :
    gram_schmidt_rows (1 : Matrix (Fin m) (Fin m) ℝ) = 1 :=
  gram_schmidt_rows_of_orthonormal 1 rowsE_one_orth rowsE_one_norm

theorem flip_cols_one {m : ℕ} :
    flip_cols (1 : Matrix (Fin (m + 1)) (Fin (m + 1)) ℝ) = 1 := by
  funext i j
  unfold flip_cols
  rw [if_neg]
  rw [Matrix.one_apply]
  split <;> norm_num

theorem vnorm_e2 : vnorm ![(1 : ℝ), 0] = 1 := by
  unfold vnorm
  rw [Fin.sum_univ_two]
  norm_num

theorem vnorm_e3 : vnorm ![(1 : ℝ), 0, 0] = 1 := by
  unfold vnorm
  rw [Fin.sum_univ_three]
  norm_num

theorem p_init_e2 : p_init ![(1 : ℝ), 0] 0 = 1 := by
  funext i k
  fin_cases i <;> fin_cases k <;> simp [p_init, vnorm_e2, Matrix.one_apply]

theorem p_init_e3 : p_init ![(1 : ℝ), 0, 0] 0 = 1 := by
  funext i k
  fin_cases i <;> fin_cases k <;> simp [p_init, vnorm_e3, Matrix.one_apply]

theorem EVPe2 : p_from_w ![(1 : ℝ), 0] = some 1 := by
  rw [p_from_w_explicit _ (by norm_num), p_init_e2, gram_schmidt_rows_one, flip_cols_one]

theorem EVPe3 : p_from_w ![(1 : ℝ), 0, 0] = some 1 := by
  rw [p_from_w_explicit _ (by norm_num), p_init_e3, gram_schmidt_rows_one, flip_cols_one]

theorem EVPme2 : p_from_w ![(-1 : ℝ), 0] = some 1 := by
  have hm : vnorm ![(-1 : ℝ), 0] = 1 := by
    unfold vnorm
    rw [Fin.sum_univ_two]
    norm_num
  rw [p_from_w_explicit _ (by norm_num)]
  rw [gram_schmidt_rows_p_init_two (-1) 0 (by norm_num), hm]
  congr 1
  funext i j
  unfold flip_cols
  fin_cases i <;> fin_cases j <;> norm_num [Matrix.one_apply]

theorem p_from_w_vnorm_pos {n : ℕ} {w : Fin (n + 1) → ℝ}
    {P : Matrix (Fin (n + 1)) (Fin (n + 1)) ℝ} (h : p_from_w w = some P) :
    0 < vnorm w := by
  obtain ⟨j0, hj0, _⟩ := p_from_w_eq h
  exact vnorm_pos w j0 (eff_idx_ne_zero hj0)

/-! ### Claims C4, C5, C8, C10: the transform matrix `p_from_w` -/

/-- C4, counterexample: for the weight vector `w = (-3, 4)` (which has a
negative component), the first row of the matrix returned by `p_from_w` is
`(3/5, 4/5)`, not `w / ‖w‖ = (-3/5, 4/5)`: the claim that the first row equals
`w / ‖w‖` for all `w`, including those with negative components, is false. -/
theorem C4_counterexample :
    p_from_w ![(-3 : ℝ), 4] = some ![![3 / 5, 4 / 5], ![-(4 / 5), 3 / 5]] ∧
      (![![(3 : ℝ) / 5, 4 / 5], ![-(4 / 5), 3 / 5]]) 0 0 ≠
        (![(-3 : ℝ), 4]) 0 / vnorm ![(-3 : ℝ), 4] := by
  refine ⟨EVPm34, ?_⟩
  rw [vnorm_m34]
  norm_num

/-- C4 (amended): whenever `p_from_w w` succeeds, row `0` of the returned
matrix is the entrywise absolute value `|w| / ‖w‖` of the normalized weight
vector; it therefore equals `w / ‖w‖` exactly when `w` has no strictly
negative component. -/
theorem C4_row0 {n : ℕ} (w : Fin (n + 1) → ℝ)
    (P : Matrix (Fin (n + 1)) (Fin (n + 1)) ℝ) (h : p_from_w w = some P)
    (j : Fin (n + 1)) : P 0 j = |w j| / vnorm w :=
  p_from_w_row0_abs h j

/-- C4, witness at `w = (1, 0)`. -/
theorem C4_witness :
    (1 : Matrix (Fin 2) (Fin 2) ℝ) 0 0 = |(![(1 : ℝ), 0]) 0| / vnorm ![(1 : ℝ), 0] :=
  C4_row0 ![(1 : ℝ), 0] 1 EVPe2 0

/-- C5: for every weight vector accepted by `p_from_w`, the returned matrix
satisfies `P·P' = 1` exactly (orthonormal rows), and this orthonormality
survives the column sign-canonicalization step (the returned matrix is the
canonicalized one). -/
theorem C5_orthonormal {n : ℕ} (w : Fin (n + 1) → ℝ)
    (P : Matrix (Fin (n + 1)) (Fin (n + 1)) ℝ) (h : p_from_w w = some P) :
    P * Pᵀ = 1 :=
  p_from_w_mul_transpose h

/-- C5, witness at `w = (3, 4)`. -/
theorem C5_witness :
    (show Matrix (Fin 2) (Fin 2) ℝ from ![![(3 : ℝ) / 5, 4 / 5], ![-(4 / 5), 3 / 5]]) *
      (show Matrix (Fin 2) (Fin 2) ℝ from ![![(3 : ℝ) / 5, 4 / 5], ![-(4 / 5), 3 / 5]])ᵀ = 1 :=
  C5_orthonormal ![(3 : ℝ), 4] _ EVP34

/-- C8: `p_from_w` fails precisely when no component of the weight vector
exceeds the epsilon `1e-5` in absolute value; for every other weight vector it
returns a matrix. -/
theorem C8_degenerate_weight {n : ℕ} (w : Fin (n + 1) → ℝ) :
    p_from_w w = none ↔ ∀ j, |w j| ≤ 1 / 100000 :=
  p_from_w_none_iff w

/-- C10: whenever `p_from_w w` succeeds, every entry of row `0` of the
returned matrix is non-negative, and consequently the first row equals
`w / ‖w‖` only when `w` has no strictly negative component. -/
theorem C10_row0_nonneg {n : ℕ} (w : Fin (n + 1) → ℝ)
    (P : Matrix (Fin (n + 1)) (Fin (n + 1)) ℝ) (h : p_from_w w = some P) :
    (∀ j, 0 ≤ P 0 j) ∧ ((∀ j, P 0 j = w j / vnorm w) → ∀ j, 0 ≤ w j) := by
  have hv : 0 < vnorm w := p_from_w_vnorm_pos h
  constructor
  · intro j
    rw [p_from_w_row0_abs h j]
    exact div_nonneg (abs_nonneg _) (le_of_lt hv)
  · intro hrow j
    have h1 := p_from_w_row0_abs h j
    rw [hrow j] at h1
    have h2 : w j = |w j| :=
      mul_right_cancel₀ (inv_ne_zero (ne_of_gt hv))
        (by rw [← div_eq_mul_inv, ← div_eq_mul_inv]; exact h1)
    rw [h2]
    exact abs_nonneg _

/-- C10, witness at `w = (1, 0)`. -/
theorem C10_witness : 0 ≤ (1 : Matrix (Fin 2) (Fin 2) ℝ) 0 1 :=
  (C10_row0_nonneg ![(1 : ℝ), 0] 1 EVPe2).1 1

/-! ### The simplex generator -/

theorem onesFirst_li (m : ℕ) :
    LinearIndependent ℝ (rowsE (onesFirst (m + 2))) := by
  refine rows_li _ 0 (fun i => i.succ) (fun a b hab => Fin.succ_injective _ hab)
    (fun i => Fin.succ_ne_zero i) ?_ ?_
  · unfold onesFirst
    rw [if_pos rfl]
    norm_num
  · intro i k
    unfold onesFirst
    rw [if_neg (Fin.succ_ne_zero i)]
    exact if_congr eq_comm rfl rfl

theorem ssvG_row0 (m : ℕ) (j : Fin (m + 2)) :
    gram_schmidt_rows (onesFirst (m + 2)) 0 j = (Real.sqrt ((m : ℝ) + 2))⁻¹ := by
  have hone : ∀ k : Fin (m + 2), rowsE (onesFirst (m + 2)) 0 k = 1 := by
    intro k
    unfold rowsE onesFirst
    rw [if_pos rfl]
  have hnorm : ‖rowsE (onesFirst (m + 2)) 0‖ = Real.sqrt ((m : ℝ) + 2) := by
    rw [norm_euclidean]
    congr 1
    have hsq1 : ∀ k : Fin (m + 2), rowsE (onesFirst (m + 2)) 0 k ^ 2 = 1 := by
      intro k
      rw [hone k]
      norm_num
    rw [Finset.sum_congr rfl fun k _ => hsq1 k, Finset.sum_const, Finset.card_univ,
      Fintype.card_fin, nsmul_eq_mul, mul_one]
    push_cast
    ring
  unfold gram_schmidt_rows
  rw [gsRows_zero, hnorm]
  rw [PiLp.smul_apply, smul_eq_mul, hone j, mul_one]

theorem ssvG_rowsum (m : ℕ) (i : Fin (m + 1)) :
    ∑ j, gram_schmidt_rows (onesFirst (m + 2)) i.succ j = 0 := by
  have horth := gram_schmidt_rows_mul_transpose (onesFirst_li m)
  have h0 := congrFun (congrFun horth i.succ) 0
  simp only [Matrix.mul_apply, Matrix.transpose_apply,
    Matrix.one_apply_ne (Fin.succ_ne_zero i)] at h0
  simp only [ssvG_row0] at h0
  rw [← Finset.sum_mul] at h0
  have hs : (Real.sqrt ((m : ℝ) + 2))⁻¹ ≠ 0 := by
    apply inv_ne_zero
    apply ne_of_gt
    apply Real.sqrt_pos.mpr
    positivity
  exact (mul_eq_zero.mp h0).resolve_right hs

theorem ssv_pre_apply (m : ℕ) (h : 2 ≤ m + 2) (i : Fin (m + 1)) (j : Fin (m + 2)) :
    ssv_pre (m + 2) h i j = gram_schmidt_rows (onesFirst (m + 2)) i.succ (j + 1) := by
  have hidx : ssv_pre (m + 2) h i j =
      (gram_schmidt_rows (onesFirst (m + 2)) * centerZ (m + 2)) i.succ (j + 1) := rfl
  rw [hidx, Matrix.mul_apply]
  unfold centerZ
  have hterm : ∀ k : Fin (m + 2), gram_schmidt_rows (onesFirst (m + 2)) i.succ k *
      ((if k = j + 1 then 1 else 0) - 1 / ((m + 2 : ℕ) : ℝ)) =
      (if k = j + 1 then gram_schmidt_rows (onesFirst (m + 2)) i.succ k else 0) -
        gram_schmidt_rows (onesFirst (m + 2)) i.succ k * (1 / ((m + 2 : ℕ) : ℝ)) := by
    intro k
    split <;> ring
  rw [Finset.sum_congr rfl fun k _ => hterm k, Finset.sum_sub_distrib,
    Finset.sum_ite_eq' Finset.univ (j + 1), if_pos (Finset.mem_univ _),
    ← Finset.sum_mul, ssvG_rowsum m i, zero_mul, sub_zero]

theorem ssv_pre_gram (m : ℕ) (h : 2 ≤ m + 2) (j1 j2 : Fin (m + 2)) :
    ∑ i : Fin (m + 1), ssv_pre (m + 2) h i j1 * ssv_pre (m + 2) h i j2 =
      (if j1 = j2 then 1 else 0) - 1 / ((m : ℝ) + 2) := by
  have htmul := Matrix.mul_eq_one_comm.mp (gram_schmidt_rows_mul_transpose (onesFirst_li m))
  have hcc := congrFun (congrFun htmul (j1 + 1)) (j2 + 1)
  simp only [Matrix.mul_apply, Matrix.transpose_apply, Matrix.one_apply] at hcc
  rw [Fin.sum_univ_succ] at hcc
  simp only [ssvG_row0] at hcc
  have hsq : (Real.sqrt ((m : ℝ) + 2))⁻¹ * (Real.sqrt ((m : ℝ) + 2))⁻¹ = 1 / ((m : ℝ) + 2) := by
    rw [← mul_inv, Real.mul_self_sqrt (by positivity), one_div]
  rw [hsq] at hcc
  have hiff : (j1 + 1 = j2 + 1) ↔ (j1 = j2) := add_left_inj 1
  simp only [hiff] at hcc
  simp only [ssv_pre_apply]
  linarith [hcc]

theorem ssv_pre_rowsum (m : ℕ) (h : 2 ≤ m + 2) (i : Fin (m + 1)) :
    ∑ j : Fin (m + 2), ssv_pre (m + 2) h i j = 0 := by
  simp only [ssv_pre_apply]
  rw [← ssvG_rowsum m i]
  exact Fintype.sum_equiv (Equiv.addRight 1) _ _ (fun j => rfl)

theorem ssv_core_sign (m : ℕ) (h : 2 ≤ m + 2) :
    ∃ s : ℝ, s ^ 2 = 1 ∧ ∀ (i : Fin (m + 1)) (j : Fin (m + 2)),
      ssv_core (m + 2) h i j =
        s * ssv_pre (m + 2) h i j * Real.sqrt (((m + 2 : ℕ) : ℝ) / (((m + 2 : ℕ) : ℝ) - 1)) := by
  rcases lt_or_le (ssv_pre (m + 2) h (0 : Fin (m + 1)) (0 : Fin (m + 2))) 0 with hc | hc
  · refine ⟨-1, by norm_num, fun i j => ?_⟩
    have hb : ssv_core (m + 2) h i j =
        (if ssv_pre (m + 2) h (0 : Fin (m + 1)) (0 : Fin (m + 2)) < 0 then
          -ssv_pre (m + 2) h else ssv_pre (m + 2) h) i j *
          Real.sqrt (((m + 2 : ℕ) : ℝ) / (((m + 2 : ℕ) : ℝ) - 1)) := rfl
    rw [hb, if_pos hc, Matrix.neg_apply]
    ring
  · refine ⟨1, by norm_num, fun i j => ?_⟩
    have hb : ssv_core (m + 2) h i j =
        (if ssv_pre (m + 2) h (0 : Fin (m + 1)) (0 : Fin (m + 2)) < 0 then
          -ssv_pre (m + 2) h else ssv_pre (m + 2) h) i j *
          Real.sqrt (((m + 2 : ℕ) : ℝ) / (((m + 2 : ℕ) : ℝ) - 1)) := rfl
    rw [hb, if_neg (not_lt.mpr hc)]
    ring

theorem ssv_scale_sq (m : ℕ) :
    Real.sqrt (((m + 2 : ℕ) : ℝ) / (((m + 2 : ℕ) : ℝ) - 1)) ^ 2 =
      ((m : ℝ) + 2) / ((m : ℝ) + 1) := by
  rw [Real.sq_sqrt]
  · push_cast
    ring_nf
  · apply div_nonneg
    · push_cast
      positivity
    · push_cast
      linarith

theorem ssv_core_dist (m : ℕ) (h : 2 ≤ m + 2) (j1 j2 : Fin (m + 2)) (hne : j1 ≠ j2) :
    ∑ i : Fin (m + 1), (ssv_core (m + 2) h i j1 - ssv_core (m + 2) h i j2) ^ 2 =
      2 * ((m : ℝ) + 2) / ((m : ℝ) + 1) := by
  obtain ⟨s, hs, hval⟩ := ssv_core_sign m h
  have hexp : ∀ i : Fin (m + 1),
      (ssv_core (m + 2) h i j1 - ssv_core (m + 2) h i j2) ^ 2 =
      s ^ 2 * Real.sqrt (((m + 2 : ℕ) : ℝ) / (((m + 2 : ℕ) : ℝ) - 1)) ^ 2 *
        (ssv_pre (m + 2) h i j1 * ssv_pre (m + 2) h i j1 -
          2 * (ssv_pre (m + 2) h i j1 * ssv_pre (m + 2) h i j2) +
          ssv_pre (m + 2) h i j2 * ssv_pre (m + 2) h i j2) := by
    intro i
    rw [hval i j1, hval i j2]
    ring
  rw [Finset.sum_congr rfl fun i _ => hexp i, ← Finset.mul_sum]
  have hsplit : ∑ i : Fin (m + 1), (ssv_pre (m + 2) h i j1 * ssv_pre (m + 2) h i j1 -
      2 * (ssv_pre (m + 2) h i j1 * ssv_pre (m + 2) h i j2) +
      ssv_pre (m + 2) h i j2 * ssv_pre (m + 2) h i j2) =
      (∑ i : Fin (m + 1), ssv_pre (m + 2) h i j1 * ssv_pre (m + 2) h i j1) -
      2 * (∑ i : Fin (m + 1), ssv_pre (m + 2) h i j1 * ssv_pre (m + 2) h i j2) +
      (∑ i : Fin (m + 1), ssv_pre (m + 2) h i j2 * ssv_pre (m + 2) h i j2) := by
    rw [Finset.sum_add_distrib, Finset.sum_sub_distrib, Finset.mul_sum]
  rw [hsplit, ssv_pre_gram m h j1 j1, ssv_pre_gram m h j1 j2, ssv_pre_gram m h j2 j2,
    if_pos rfl, if_neg hne, hs, ssv_scale_sq]
  have h2 : (m : ℝ) + 2 ≠ 0 := by positivity
  have h1 : (m : ℝ) + 1 ≠ 0 := by positivity
  field_simp
  ring

theorem ssv_core_rowsum (m : ℕ) (h : 2 ≤ m + 2) (i : Fin (m + 1)) :
    ∑ j : Fin (m + 2), ssv_core (m + 2) h i j = 0 := by
  obtain ⟨s, hs, hval⟩ := ssv_core_sign m h
  rw [Finset.sum_congr rfl fun j _ => hval i j]
  have hfac : ∀ j : Fin (m + 2), s * ssv_pre (m + 2) h i j *
      Real.sqrt (((m + 2 : ℕ) : ℝ) / (((m + 2 : ℕ) : ℝ) - 1)) =
      (s * Real.sqrt (((m + 2 : ℕ) : ℝ) / (((m + 2 : ℕ) : ℝ) - 1))) *
        ssv_pre (m + 2) h i j := by
    intro j
    ring
  rw [Finset.sum_congr rfl fun j _ => hfac j, ← Finset.mul_sum, ssv_pre_rowsum m h i,
    mul_zero]

theorem ssv_core_colsq (m : ℕ) (h : 2 ≤ m + 2) (j : Fin (m + 2)) :
    ∑ i : Fin (m + 1), ssv_core (m + 2) h i j ^ 2 = 1 := by
  obtain ⟨s, hs, hval⟩ := ssv_core_sign m h
  have hexp : ∀ i : Fin (m + 1), ssv_core (m + 2) h i j ^ 2 =
      s ^ 2 * Real.sqrt (((m + 2 : ℕ) : ℝ) / (((m + 2 : ℕ) : ℝ) - 1)) ^ 2 *
        (ssv_pre (m + 2) h i j * ssv_pre (m + 2) h i j) := by
    intro i
    rw [hval i j]
    ring
  rw [Finset.sum_congr rfl fun i _ => hexp i, ← Finset.mul_sum, ssv_pre_gram m h j j,
    if_pos rfl, hs, ssv_scale_sq]
  have h2 : (m : ℝ) + 2 ≠ 0 := by positivity
  have h1 : (m : ℝ) + 1 ≠ 0 := by positivity
  field_simp
  ring

/-! ### Claim C6: the simplex vertices -/

/-- C6: for every `M ≥ 2`, the matrix returned by `standard_simplex_vertices`
has columns with identical pairwise squared Euclidean distances
(`2·M/(M-1)`, i.e. identical distances), and the centroid of the columns is
the origin (every row sums to zero). -/
theorem C6_simplex (M : ℕ) (T : Matrix (Fin (M - 1)) (Fin M) ℝ)
    (hT : standard_simplex_vertices M = some T) :
    (∀ j1 j2 : Fin M, j1 ≠ j2 →
      ∑ i, (T i j1 - T i j2) ^ 2 = 2 * (M : ℝ) / ((M : ℝ) - 1)) ∧
    (∀ i, ∑ j, T i j = 0) := by
  unfold standard_simplex_vertices at hT
  split at hT
  · rename_i h
    obtain ⟨m, rfl⟩ : ∃ m, M = m + 2 := ⟨M - 2, by omega⟩
    have hT2 := Option.some.inj hT
    subst hT2
    constructor
    · intro j1 j2 hne
      have hd := ssv_core_dist m h j1 j2 hne
      have hcast : 2 * ((m : ℝ) + 2) / ((m : ℝ) + 1) =
          2 * ((m + 2 : ℕ) : ℝ) / (((m + 2 : ℕ) : ℝ) - 1) := by
        push_cast
        ring_nf
      rw [hcast] at hd
      exact hd
    · intro i
      exact ssv_core_rowsum m h i
  · exact absurd hT (by simp)

/-- C6, witness at `M = 2`. -/
theorem C6_witness :
    ∑ i, (ssv_core 2 (le_refl 2) i 0 - ssv_core 2 (le_refl 2) i 1) ^ 2 =
      2 * (2 : ℝ) / ((2 : ℝ) - 1) :=
  (C6_simplex 2 (ssv_core 2 (le_refl 2))
    (by unfold standard_simplex_vertices; exact dif_pos (le_refl 2))).1 0 1 (by decide)

/-! ### Concrete simplex evaluation at `M = 2` -/

theorem gs_onesFirst_two :
    gram_schmidt_rows (onesFirst 2) =
      ![![(Real.sqrt 2)⁻¹, (Real.sqrt 2)⁻¹], ![-(Real.sqrt 2)⁻¹, (Real.sqrt 2)⁻¹]] := by
  have h2 : (0 : ℝ) < Real.sqrt 2 := Real.sqrt_pos.mpr (by norm_num)
  have hss : Real.sqrt 2 * Real.sqrt 2 = 2 := Real.mul_self_sqrt (by norm_num)
  have hf0 : rowsE (onesFirst 2) 0 = (show EuclideanSpace ℝ (Fin 2) from ![1, 1]) := by
    funext k
    unfold rowsE onesFirst
    fin_cases k <;> simp
  have hf1 : rowsE (onesFirst 2) 1 = (show EuclideanSpace ℝ (Fin 2) from ![0, 1]) := by
    funext k
    unfold rowsE onesFirst
    fin_cases k <;> simp
  funext i j
  fin_cases i
  · have h0 : gram_schmidt_rows (onesFirst 2) 0 j =
        (‖rowsE (onesFirst 2) 0‖⁻¹ • rowsE (onesFirst 2) 0) j := by
      unfold gram_schmidt_rows
      rw [gsRows_zero]
    simp only [Fin.zero_eta]
    rw [h0, hf0]
    have hn : ‖(show EuclideanSpace ℝ (Fin 2) from ![(1 : ℝ), 1])‖ = Real.sqrt 2 := by
      rw [norm_euclidean, Fin.sum_univ_two]
      norm_num
    rw [PiLp.smul_apply, smul_eq_mul, hn]
    fin_cases j <;> simp
  · have h1 : gram_schmidt_rows (onesFirst 2) 1 j =
        (‖gramSchmidt ℝ (rowsE (onesFirst 2)) 1‖⁻¹ •
          gramSchmidt ℝ (rowsE (onesFirst 2)) 1) j := by
      unfold gram_schmidt_rows
      rw [gsRows_eq_normalize]
    have hgs1 : gramSchmidt ℝ (rowsE (onesFirst 2)) 1 =
        (show EuclideanSpace ℝ (Fin 2) from ![-(1 / 2), 1 / 2]) := by
      rw [gramSchmidt_one_fin2, hf0, hf1]
      have hi : (inner (show EuclideanSpace ℝ (Fin 2) from ![(1 : ℝ), 1])
          (show EuclideanSpace ℝ (Fin 2) from ![(0 : ℝ), 1]) : ℝ) = 1 := by
        rw [inner_euclidean, Fin.sum_univ_two]
        norm_num
      have hn0 : ‖(show EuclideanSpace ℝ (Fin 2) from ![(1 : ℝ), 1])‖ ^ 2 = 2 := by
        rw [norm_sq_euclidean, Fin.sum_univ_two]
        norm_num
      rw [hi, hn0]
      funext k
      fin_cases k <;>
        simp only [PiLp.sub_apply, PiLp.smul_apply, smul_eq_mul, Matrix.cons_val_zero,
          Matrix.cons_val_one, Matrix.head_cons] <;>
        norm_num
    simp only [Fin.mk_one]
    rw [h1, hgs1]
    have hn1 : ‖(show EuclideanSpace ℝ (Fin 2) from ![-(1 / 2), (1 : ℝ) / 2])‖ =
        (Real.sqrt 2)⁻¹ := by
      rw [norm_euclidean, Fin.sum_univ_two]
      simp only [Matrix.cons_val_zero, Matrix.cons_val_one, Matrix.head_cons]
      have : (-(1 / 2) : ℝ) ^ 2 + ((1 : ℝ) / 2) ^ 2 = ((Real.sqrt 2)⁻¹) ^ 2 := by
        rw [show ((Real.sqrt 2)⁻¹) ^ 2 = (Real.sqrt 2 * Real.sqrt 2)⁻¹ by
          rw [sq, mul_inv]]
        rw [hss]
        norm_num
      rw [this, Real.sqrt_sq (by positivity)]
    rw [PiLp.smul_apply, smul_eq_mul, hn1, inv_inv]
    fin_cases j <;>
      simp only [Matrix.cons_val_zero, Matrix.cons_val_one, Matrix.head_cons] <;>
      field_simp

theorem ssv_pre_two (h : 2 ≤ 2) :
    ∀ (i : Fin 1) (j : Fin 2), ssv_pre 2 h i j =
      (![![(Real.sqrt 2)⁻¹, -(Real.sqrt 2)⁻¹]] : Matrix (Fin 1) (Fin 2) ℝ) i j := by
  intro i j
  have hi : i = 0 := Subsingleton.elim i 0
  subst hi
  have happ := ssv_pre_apply 0 h 0 j
  rw [happ, gs_onesFirst_two]
  fin_cases j <;> simp [show ((0 : Fin 2) + 1) = 1 by decide,
    show ((1 : Fin 2) + 1) = 0 by decide]

theorem ssv_core_two (h : 2 ≤ 2) :
    ∀ (i : Fin 1) (j : Fin 2), ssv_core 2 h i j =
      (![![1, -1]] : Matrix (Fin 1) (Fin 2) ℝ) i j := by
  have h2 : (0 : ℝ) < Real.sqrt 2 := Real.sqrt_pos.mpr (by norm_num)
  have hss : Real.sqrt 2 * Real.sqrt 2 = 2 := Real.mul_self_sqrt (by norm_num)
  have hscale : Real.sqrt (((2 : ℕ) : ℝ) / (((2 : ℕ) : ℝ) - 1)) = Real.sqrt 2 := by
    norm_num
  intro i j
  have hb : ssv_core 2 h i j =
      (if ssv_pre 2 h (0 : Fin 1) (0 : Fin 2) < 0 then
        -ssv_pre 2 h else ssv_pre 2 h) i j *
        Real.sqrt (((2 : ℕ) : ℝ) / (((2 : ℕ) : ℝ) - 1)) := rfl
  rw [hb, if_neg, hscale]
  · rw [ssv_pre_two h i j]
    have hi : i = 0 := Subsingleton.elim i 0
    subst hi
    fin_cases j <;>
      simp only [Matrix.cons_val_zero, Matrix.cons_val_one, Matrix.head_cons,
        Matrix.cons_val_fin_one] <;>
      field_simp
  · rw [ssv_pre_two h 0 0]
    simp only [Matrix.cons_val_zero, Matrix.cons_val_fin_one]
    intro hc
    exact absurd hc (not_lt.mpr (by positivity))

/-! ### Concrete simplex evaluation at `M = 3` -/

theorem sqrt6_two : Real.sqrt 6 = 2 * Real.sqrt (3 / 2) := by
  rw [show (6 : ℝ) = 4 * (3 / 2) by norm_num, Real.sqrt_mul (by norm_num : (0 : ℝ) ≤ 4),
    show Real.sqrt 4 = 2 by
      rw [show (4 : ℝ) = 2 ^ 2 by norm_num, Real.sqrt_sq (by norm_num)]]

theorem sqrt6_three : Real.sqrt 6 = 3 * Real.sqrt (2 / 3) := by
  rw [show (6 : ℝ) = 9 * (2 / 3) by norm_num, Real.sqrt_mul (by norm_num : (0 : ℝ) ≤ 9),
    show Real.sqrt 9 = 3 by
      rw [show (9 : ℝ) = 3 ^ 2 by norm_num, Real.sqrt_sq (by norm_num)]]

theorem sqrt2_half : Real.sqrt 2 = 2 * Real.sqrt (1 / 2) := by
  conv_lhs => rw [show (2 : ℝ) = 4 * (1 / 2) by norm_num]
  rw [Real.sqrt_mul (by norm_num : (0 : ℝ) ≤ 4),
    show Real.sqrt 4 = 2 by
      rw [show (4 : ℝ) = 2 ^ 2 by norm_num, Real.sqrt_sq (by norm_num)]]

theorem inv_s23_third : (Real.sqrt (2 / 3))⁻¹ * (1 / 3) = (Real.sqrt 6)⁻¹ := by
  rw [sqrt6_three, mul_inv]
  ring

theorem inv_s12_half : (Real.sqrt (1 / 2))⁻¹ * (1 / 2) = (Real.sqrt 2)⁻¹ := by
  rw [sqrt2_half, mul_inv]
  ring

theorem s32_mul_inv6 : Real.sqrt (3 / 2) * (Real.sqrt 6)⁻¹ = 1 / 2 := by
  have hs : Real.sqrt (3 / 2) ≠ 0 := ne_of_gt (Real.sqrt_pos.mpr (by norm_num))
  rw [sqrt6_two, mul_inv]
  rw [show Real.sqrt (3 / 2) * ((2 : ℝ)⁻¹ * (Real.sqrt (3 / 2))⁻¹) =
    Real.sqrt (3 / 2) * (Real.sqrt (3 / 2))⁻¹ * 2⁻¹ by ring]
  rw [mul_inv_cancel₀ hs, one_mul, one_div]

theorem s32_mul_inv2 : Real.sqrt (3 / 2) * (Real.sqrt 2)⁻¹ = Real.sqrt 3 / 2 := by
  have hss : Real.sqrt 2 * Real.sqrt 2 = 2 := Real.mul_self_sqrt (by norm_num)
  calc Real.sqrt (3 / 2) * (Real.sqrt 2)⁻¹
      = Real.sqrt 3 / Real.sqrt 2 * (Real.sqrt 2)⁻¹ := by
        rw [Real.sqrt_div (by norm_num : (0 : ℝ) ≤ 3) 2]
    _ = Real.sqrt 3 * (Real.sqrt 2 * Real.sqrt 2)⁻¹ := by
        rw [div_eq_mul_inv, mul_assoc, ← mul_inv]
    _ = Real.sqrt 3 / 2 := by
        rw [hss, ← div_eq_mul_inv]

theorem gs_onesFirst_three :
    gram_schmidt_rows (onesFirst 3) =
      ![![(Real.sqrt 3)⁻¹, (Real.sqrt 3)⁻¹, (Real.sqrt 3)⁻¹],
        ![-(Real.sqrt 6)⁻¹, 2 * (Real.sqrt 6)⁻¹, -(Real.sqrt 6)⁻¹],
        ![-(Real.sqrt 2)⁻¹, 0, (Real.sqrt 2)⁻¹]] := by
  have hf0 : rowsE (onesFirst 3) 0 = (show EuclideanSpace ℝ (Fin 3) from ![1, 1, 1]) := by
    funext k
    unfold rowsE onesFirst
    fin_cases k <;> simp
  have hf1 : rowsE (onesFirst 3) 1 = (show EuclideanSpace ℝ (Fin 3) from ![0, 1, 0]) := by
    funext k
    unfold rowsE onesFirst
    fin_cases k <;> simp
  have hf2 : rowsE (onesFirst 3) 2 = (show EuclideanSpace ℝ (Fin 3) from ![0, 0, 1]) := by
    funext k
    unfold rowsE onesFirst
    fin_cases k <;> simp
  have hi01 : (inner (show EuclideanSpace ℝ (Fin 3) from ![(1 : ℝ), 1, 1])
      (show EuclideanSpace ℝ (Fin 3) from ![(0 : ℝ), 1, 0]) : ℝ) = 1 := by
    rw [inner_euclidean, Fin.sum_univ_three]
    norm_num
  have hn0 : ‖(show EuclideanSpace ℝ (Fin 3) from ![(1 : ℝ), 1, 1])‖ ^ 2 = 3 := by
    rw [norm_sq_euclidean, Fin.sum_univ_three]
    norm_num
  have hgs1 : gramSchmidt ℝ (rowsE (onesFirst 3)) 1 =
      (show EuclideanSpace ℝ (Fin 3) from ![-(1 / 3), 2 / 3, -(1 / 3)]) := by
    rw [gramSchmidt_one_fin3, hf0, hf1, hi01, hn0]
    funext k
    fin_cases k <;>
      simp only [PiLp.sub_apply, PiLp.smul_apply, smul_eq_mul, Matrix.cons_val_zero,
        Matrix.cons_val_one, Matrix.head_cons, Matrix.cons_val_two, Matrix.tail_cons] <;>
      norm_num
  have hgs2 : gramSchmidt ℝ (rowsE (onesFirst 3)) 2 =
      (show EuclideanSpace ℝ (Fin 3) from ![-(1 / 2), 0, 1 / 2]) := by
    rw [gramSchmidt_two_fin3, hf0, hf2, hgs1]
    have hi02 : (inner (show EuclideanSpace ℝ (Fin 3) from ![(1 : ℝ), 1, 1])
        (show EuclideanSpace ℝ (Fin 3) from ![(0 : ℝ), 0, 1]) : ℝ) = 1 := by
      rw [inner_euclidean, Fin.sum_univ_three]
      norm_num
    have hi12 : (inner (show EuclideanSpace ℝ (Fin 3) from ![-(1 / 3), (2 : ℝ) / 3, -(1 / 3)])
        (show EuclideanSpace ℝ (Fin 3) from ![(0 : ℝ), 0, 1]) : ℝ) = -(1 / 3) := by
      rw [inner_euclidean, Fin.sum_univ_three]
      norm_num
    have hn1 : ‖(show EuclideanSpace ℝ (Fin 3) from ![-(1 / 3), (2 : ℝ) / 3, -(1 / 3)])‖ ^ 2 =
        2 / 3 := by
      rw [norm_sq_euclidean, Fin.sum_univ_three]
      simp only [Matrix.cons_val_zero, Matrix.cons_val_one, Matrix.head_cons,
        Matrix.cons_val_two, Matrix.tail_cons]
      norm_num
    rw [hi02, hi12, hn1, hn0]
    funext k
    fin_cases k <;>
      simp only [PiLp.sub_apply, PiLp.smul_apply, smul_eq_mul, Matrix.cons_val_zero,
        Matrix.cons_val_one, Matrix.head_cons, Matrix.cons_val_two, Matrix.tail_cons] <;>
      norm_num
  funext i j
  fin_cases i
  · have h0 : gram_schmidt_rows (onesFirst 3) 0 j =
        (‖rowsE (onesFirst 3) 0‖⁻¹ • rowsE (onesFirst 3) 0) j := by
      unfold gram_schmidt_rows
      rw [gsRows_zero]
    simp only [Fin.zero_eta]
    rw [h0, hf0]
    have hn : ‖(show EuclideanSpace ℝ (Fin 3) from ![(1 : ℝ), 1, 1])‖ = Real.sqrt 3 := by
      rw [norm_euclidean, Fin.sum_univ_three]
      norm_num
    rw [PiLp.smul_apply, smul_eq_mul, hn]
    fin_cases j <;> simp
  · have h1 : gram_schmidt_rows (onesFirst 3) 1 j =
        (‖gramSchmidt ℝ (rowsE (onesFirst 3)) 1‖⁻¹ •
          gramSchmidt ℝ (rowsE (onesFirst 3)) 1) j := by
      unfold gram_schmidt_rows
      rw [gsRows_eq_normalize]
    have hnv : ‖(show EuclideanSpace ℝ (Fin 3) from ![-(1 / 3), (2 : ℝ) / 3, -(1 / 3)])‖ =
        Real.sqrt (2 / 3) := by
      rw [norm_euclidean, Fin.sum_univ_three]
      simp only [Matrix.cons_val_zero, Matrix.cons_val_one, Matrix.head_cons,
        Matrix.cons_val_two, Matrix.tail_cons]
      norm_num
    simp only [Fin.mk_one]
    rw [h1, hgs1, hnv, PiLp.smul_apply, smul_eq_mul]
    fin_cases j <;>
      simp only [Fin.zero_eta, Fin.mk_one, show (⟨2, by norm_num⟩ : Fin 3) = 2 from rfl,
        Matrix.cons_val_zero, Matrix.cons_val_one, Matrix.head_cons,
        Matrix.cons_val_two, Matrix.tail_cons]
    · rw [← inv_s23_third]
      ring
    · rw [← inv_s23_third]
      ring
    · rw [← inv_s23_third]
      ring
  · have h2 : gram_schmidt_rows (onesFirst 3) 2 j =
        (‖gramSchmidt ℝ (rowsE (onesFirst 3)) 2‖⁻¹ •
          gramSchmidt ℝ (rowsE (onesFirst 3)) 2) j := by
      unfold gram_schmidt_rows
      rw [gsRows_eq_normalize]
    have hnv : ‖(show EuclideanSpace ℝ (Fin 3) from ![-(1 / 2), (0 : ℝ), 1 / 2])‖ =
        Real.sqrt (1 / 2) := by
      rw [norm_euclidean, Fin.sum_univ_three]
      simp only [Matrix.cons_val_zero, Matrix.cons_val_one, Matrix.head_cons,
        Matrix.cons_val_two, Matrix.tail_cons]
      norm_num
    simp only [show (⟨2, by norm_num⟩ : Fin 3) = 2 from rfl]
    rw [h2, hgs2, hnv, PiLp.smul_apply, smul_eq_mul]
    fin_cases j <;>
      simp only [Fin.zero_eta, Fin.mk_one, show (⟨2, by norm_num⟩ : Fin 3) = 2 from rfl,
        Matrix.cons_val_zero, Matrix.cons_val_one, Matrix.head_cons,
        Matrix.cons_val_two, Matrix.tail_cons]
    all_goals first
      | (rw [← inv_s12_half]; try ring)
      | ring

theorem ssv_pre_three (h : 2 ≤ 3) :
    ∀ (i : Fin 2) (j : Fin 3), ssv_pre 3 h i j =
      (![![2 * (Real.sqrt 6)⁻¹, -(Real.sqrt 6)⁻¹, -(Real.sqrt 6)⁻¹],
         ![0, (Real.sqrt 2)⁻¹, -(Real.sqrt 2)⁻¹]] : Matrix (Fin 2) (Fin 3) ℝ) i j := by
  intro i j
  have happ : ssv_pre 3 h i j = gram_schmidt_rows (onesFirst 3) i.succ (j + 1) :=
    ssv_pre_apply 1 h i j
  rw [happ, gs_onesFirst_three]
  fin_cases i <;> fin_cases j <;>
    simp [Fin.succ_zero_eq_one, Fin.succ_one_eq_two,
      show ((0 : Fin 3) + 1) = 1 by decide, show ((1 : Fin 3) + 1) = 2 by decide,
      show ((2 : Fin 3) + 1) = 0 by decide]

theorem ssv_core_three (h : 2 ≤ 3) :
    ∀ (i : Fin 2) (j : Fin 3), ssv_core 3 h i j =
      (![![1, -(1 / 2), -(1 / 2)],
         ![0, Real.sqrt 3 / 2, -(Real.sqrt 3 / 2)]] : Matrix (Fin 2) (Fin 3) ℝ) i j := by
  have h6 : (0 : ℝ) < Real.sqrt 6 := Real.sqrt_pos.mpr (by norm_num)
  have hscale : Real.sqrt (((3 : ℕ) : ℝ) / (((3 : ℕ) : ℝ) - 1)) = Real.sqrt (3 / 2) := by
    norm_num
  intro i j
  have hb : ssv_core 3 h i j =
      (if ssv_pre 3 h (0 : Fin 2) (0 : Fin 3) < 0 then
        -ssv_pre 3 h else ssv_pre 3 h) i j *
        Real.sqrt (((3 : ℕ) : ℝ) / (((3 : ℕ) : ℝ) - 1)) := rfl
  rw [hb, if_neg, hscale]
  · rw [ssv_pre_three h i j]
    fin_cases i <;> fin_cases j <;>
      simp only [Fin.zero_eta, Fin.mk_one, show (⟨2, by norm_num⟩ : Fin 3) = 2 from rfl,
        Matrix.cons_val_zero, Matrix.cons_val_one, Matrix.head_cons,
        Matrix.cons_val_two, Matrix.tail_cons]
    · linear_combination 2 * s32_mul_inv6
    · linear_combination (-1 : ℝ) * s32_mul_inv6
    · linear_combination (-1 : ℝ) * s32_mul_inv6
    · ring
    · linear_combination s32_mul_inv2
    · linear_combination (-1 : ℝ) * s32_mul_inv2
  · rw [ssv_pre_three h 0 0]
    simp only [Matrix.cons_val_zero]
    intro hc
    have : (0 : ℝ) < 2 * (Real.sqrt 6)⁻¹ := by positivity
    exact absurd hc (not_lt.mpr (le_of_lt this))

/-! ### Structure of `comp_scenarios` -/

theorem comp_scenarios_eq {n : ℕ} {c : Matrix (Fin (n + 1)) (Fin (n + 1)) ℝ}
    {w : Fin (n + 1) → ℝ} {L q : ℝ} {M : ℕ} {V : Matrix (Fin n) (Fin n) ℝ}
    {p : Matrix (Fin (n + 1)) (Fin (n + 1)) ℝ}
    (hp : p_from_w w = some p) (h1 : 2 ≤ M) (h2 : M - 1 ≤ n) :
    comp_scenarios n c w L q M V = some (comp_core n c w L q M V p h1 h2) := by
  unfold comp_scenarios
  rw [hp]
  show (if h : 2 ≤ M ∧ M - 1 ≤ n then some (comp_core n c w L q M V p h.1 h.2) else none) =
    some (comp_core n c w L q M V p h1 h2)
  rw [dif_pos ⟨h1, h2⟩]

theorem comp_scenarios_some {n : ℕ} {c : Matrix (Fin (n + 1)) (Fin (n + 1)) ℝ}
    {w : Fin (n + 1) → ℝ} {L q : ℝ} {M : ℕ} {V : Matrix (Fin n) (Fin n) ℝ}
    {S : Matrix (Fin (n + 1)) (Fin (M + 1)) ℝ} {l : Fin (M + 1) → ℝ}
    (h : comp_scenarios n c w L q M V = some (S, l)) :
    ∃ (p : Matrix (Fin (n + 1)) (Fin (n + 1)) ℝ) (h1 : 2 ≤ M) (h2 : M - 1 ≤ n),
      p_from_w w = some p ∧ S = (comp_core n c w L q M V p h1 h2).1 ∧
        l = (comp_core n c w L q M V p h1 h2).2 := by
  unfold comp_scenarios at h
  cases hp : p_from_w w with
  | none =>
    rw [hp] at h
    exact absurd h (by simp)
  | some p =>
    rw [hp] at h
    have hd : (if hh : 2 ≤ M ∧ M - 1 ≤ n then
        some (comp_core n c w L q M V p hh.1 hh.2) else none) = some (S, l) := h
    by_cases hc : 2 ≤ M ∧ M - 1 ≤ n
    · rw [dif_pos hc] at hd
      have hsl := Option.some.inj hd
      exact ⟨p, hc.1, hc.2, rfl, congrArg Prod.fst hsl.symm, congrArg Prod.snd hsl.symm⟩
    · rw [dif_neg hc] at hd
      exact absurd hd (by simp)

theorem comp_scenarios_none_of_M_lt_two {n : ℕ} (c : Matrix (Fin (n + 1)) (Fin (n + 1)) ℝ)
    (w : Fin (n + 1) → ℝ) (L q : ℝ) (M : ℕ) (V : Matrix (Fin n) (Fin n) ℝ)
    (hM : M < 2) : comp_scenarios n c w L q M V = none := by
  unfold comp_scenarios
  cases hp : p_from_w w with
  | none => rfl
  | some p =>
    show (if h : 2 ≤ M ∧ M - 1 ≤ n then some (comp_core n c w L q M V p h.1 h.2)
      else none) = none
    rw [dif_neg]
    intro hc
    omega

theorem df_of_col0 (n M : ℕ) (fc : ℝ) (ahy : Fin n → ℝ)
    (rz : Matrix (Fin n) (Fin M) ℝ) (k : Fin (n + 1)) :
    df_of n M fc ahy rz k 0 = (Fin.cons fc ahy : Fin (n + 1) → ℝ) k := by
  refine Fin.cases ?_ (fun k2 => ?_) k
  · rfl
  · rfl

theorem df_of_col_succ (n M : ℕ) (fc : ℝ) (ahy : Fin n → ℝ)
    (rz : Matrix (Fin n) (Fin M) ℝ) (k : Fin (n + 1)) (j2 : Fin M) :
    df_of n M fc ahy rz k j2.succ =
      (Fin.cons fc (fun i2 => rz i2 j2) : Fin (n + 1) → ℝ) k := by
  refine Fin.cases ?_ (fun k2 => ?_) k
  · rfl
  · rfl

theorem comp_core_fst (n : ℕ) (c : Matrix (Fin (n + 1)) (Fin (n + 1)) ℝ)
    (w : Fin (n + 1) → ℝ) (L q : ℝ) (M : ℕ) (V : Matrix (Fin n) (Fin n) ℝ)
    (p : Matrix (Fin (n + 1)) (Fin (n + 1)) ℝ) (h1 : 2 ≤ M) (h2 : M - 1 ≤ n) :
    (comp_core n c w L q M V p h1 h2).1 =
      pᵀ * df_of n M ((p *ᵥ ah c w L) 0) (ahy_of c w L p)
        (fun i j => radius q (dyh_of c p) (zlast_of n M V h1 h2) * zm_of n M V h1 h2 i j +
          ahy_of c w L p i) := rfl

theorem comp_core_snd (n : ℕ) (c : Matrix (Fin (n + 1)) (Fin (n + 1)) ℝ)
    (w : Fin (n + 1) → ℝ) (L q : ℝ) (M : ℕ) (V : Matrix (Fin n) (Fin n) ℝ)
    (p : Matrix (Fin (n + 1)) (Fin (n + 1)) ℝ) (h1 : 2 ≤ M) (h2 : M - 1 ≤ n) :
    (comp_core n c w L q M V p h1 h2).2 = fun j =>
      mvn_pdf c (fun i => (comp_core n c w L q M V p h1 h2).1 i j) /
        mvn_pdf c (fun i => (comp_core n c w L q M V p h1 h2).1 i 0) := rfl

theorem comp_core_col0 (n : ℕ) (c : Matrix (Fin (n + 1)) (Fin (n + 1)) ℝ)
    (w : Fin (n + 1) → ℝ) (L q : ℝ) (M : ℕ) (V : Matrix (Fin n) (Fin n) ℝ)
    (p : Matrix (Fin (n + 1)) (Fin (n + 1)) ℝ) (h1 : 2 ≤ M) (h2 : M - 1 ≤ n)
    (i : Fin (n + 1)) :
    (comp_core n c w L q M V p h1 h2).1 i 0 =
      (pᵀ *ᵥ (Fin.cons ((p *ᵥ ah c w L) 0) (ahy_of c w L p) : Fin (n + 1) → ℝ)) i := by
  rw [comp_core_fst, Matrix.mul_apply]
  simp only [Matrix.mulVec, Matrix.dotProduct]
  refine Finset.sum_congr rfl fun k _ => ?_
  rw [df_of_col0]

theorem comp_core_col_succ (n : ℕ) (c : Matrix (Fin (n + 1)) (Fin (n + 1)) ℝ)
    (w : Fin (n + 1) → ℝ) (L q : ℝ) (M : ℕ) (V : Matrix (Fin n) (Fin n) ℝ)
    (p : Matrix (Fin (n + 1)) (Fin (n + 1)) ℝ) (h1 : 2 ≤ M) (h2 : M - 1 ≤ n)
    (i : Fin (n + 1)) (j2 : Fin M) :
    (comp_core n c w L q M V p h1 h2).1 i j2.succ =
      (pᵀ *ᵥ (Fin.cons ((p *ᵥ ah c w L) 0)
        (fun i2 => radius q (dyh_of c p) (zlast_of n M V h1 h2) * zm_of n M V h1 h2 i2 j2 +
          ahy_of c w L p i2) : Fin (n + 1) → ℝ)) i := by
  rw [comp_core_fst, Matrix.mul_apply]
  simp only [Matrix.mulVec, Matrix.dotProduct]
  refine Finset.sum_congr rfl fun k _ => ?_
  rw [df_of_col_succ]

/-! ### The central column through the orthonormal transform -/

theorem cols_orthonormal {n : ℕ} {w : Fin (n + 1) → ℝ}
    {p : Matrix (Fin (n + 1)) (Fin (n + 1)) ℝ} (hp : p_from_w w = some p)
    (a i : Fin (n + 1)) : ∑ k, p k a * p k i = if a = i then 1 else 0 := by
  have h := p_from_w_transpose_mul hp
  have h2 := congrFun (congrFun h a) i
  simpa [Matrix.mul_apply, Matrix.transpose_apply, Matrix.one_apply] using h2

theorem dy_col0 {n : ℕ} (c p : Matrix (Fin (n + 1)) (Fin (n + 1)) ℝ) (s : Fin (n + 1)) :
    dy_of c p s 0 = ∑ b, p s b * (∑ a, c b a * p 0 a) := by
  unfold dy_of
  rw [Matrix.mul_apply]
  have hterm : ∀ a, (p * c) s a * pᵀ a 0 = ∑ b, p s b * c b a * p 0 a := by
    intro a
    rw [Matrix.mul_apply, Matrix.transpose_apply, Finset.sum_mul]
  rw [Finset.sum_congr rfl fun a _ => hterm a, Finset.sum_comm]
  refine Finset.sum_congr rfl fun b _ => ?_
  rw [Finset.mul_sum]
  refine Finset.sum_congr rfl fun a _ => ?_
  ring

theorem sum_proj {n : ℕ} {w : Fin (n + 1) → ℝ}
    {p : Matrix (Fin (n + 1)) (Fin (n + 1)) ℝ} (hp : p_from_w w = some p)
    (v : Fin (n + 1) → ℝ) (i : Fin (n + 1)) :
    ∑ k2 : Fin n, (∑ a, p k2.succ a * v a) * p k2.succ i =
      v i - (∑ a, p 0 a * v a) * p 0 i := by
  have hall : ∑ k : Fin (n + 1), (∑ a, p k a * v a) * p k i = v i := by
    have h1 : ∀ k, (∑ a, p k a * v a) * p k i = ∑ a, v a * (p k a * p k i) := by
      intro k
      rw [Finset.sum_mul]
      refine Finset.sum_congr rfl fun a _ => ?_
      ring
    rw [Finset.sum_congr rfl fun k _ => h1 k, Finset.sum_comm]
    have h2 : ∀ a, ∑ k, v a * (p k a * p k i) = v a * (if a = i then 1 else 0) := by
      intro a
      rw [← Finset.mul_sum, cols_orthonormal hp a i]
    rw [Finset.sum_congr rfl fun a _ => h2 a]
    simp [mul_ite, Finset.sum_ite_eq']
  rw [← hall, Fin.sum_univ_succ]
  ring

theorem col0_formula {n : ℕ} {c : Matrix (Fin (n + 1)) (Fin (n + 1)) ℝ}
    {w : Fin (n + 1) → ℝ} {L q : ℝ} {M : ℕ} {V : Matrix (Fin n) (Fin n) ℝ}
    {p : Matrix (Fin (n + 1)) (Fin (n + 1)) ℝ} {h1 : 2 ≤ M} {h2 : M - 1 ≤ n}
    (hp : p_from_w w = some p) (i : Fin (n + 1)) :
    (comp_core n c w L q M V p h1 h2).1 i 0 =
      (∑ a, p 0 a * ah c w L a) * p 0 i +
        L / d11_of c p / vnorm w *
          ((∑ a, c i a * p 0 a) - d11_of c p * p 0 i) := by
  rw [comp_core_col0]
  simp only [Matrix.mulVec, Matrix.dotProduct, Matrix.transpose_apply]
  rw [Fin.sum_univ_succ]
  simp only [Fin.cons_zero, Fin.cons_succ]
  have hterm : ∀ k2 : Fin n, p k2.succ i * ahy_of c w L p k2 =
      L / d11_of c p / vnorm w * ((∑ a, p k2.succ a * (∑ b, c a b * p 0 b)) * p k2.succ i) := by
    intro k2
    unfold ahy_of dI1_of
    rw [dy_col0]
    ring
  rw [Finset.sum_congr rfl fun k2 _ => hterm k2, ← Finset.mul_sum,
    sum_proj hp (fun a => ∑ b, c a b * p 0 b) i]
  have hd11 : d11_of c p = ∑ a, p 0 a * (∑ b, c a b * p 0 b) := dy_col0 c p 0
  rw [← hd11]
  ring

/-! ### The central column for non-negative weights -/

theorem row0_eq_of_nonneg {n : ℕ} {w : Fin (n + 1) → ℝ}
    {p : Matrix (Fin (n + 1)) (Fin (n + 1)) ℝ} (hp : p_from_w w = some p)
    (hw : ∀ j, 0 ≤ w j) (j : Fin (n + 1)) : p 0 j = w j / vnorm w := by
  rw [p_from_w_row0_abs hp j, abs_of_nonneg (hw j)]

theorem vv_eq {n : ℕ} {c : Matrix (Fin (n + 1)) (Fin (n + 1)) ℝ} {w : Fin (n + 1) → ℝ}
    {p : Matrix (Fin (n + 1)) (Fin (n + 1)) ℝ} (hp : p_from_w w = some p)
    (hw : ∀ j, 0 ≤ w j) (i : Fin (n + 1)) :
    ∑ a, c i a * p 0 a = (c *ᵥ w) i / vnorm w := by
  have h : ∀ a, c i a * p 0 a = c i a * w a / vnorm w := by
    intro a
    rw [row0_eq_of_nonneg hp hw a, mul_div_assoc]
  rw [Finset.sum_congr rfl fun a _ => h a, ← Finset.sum_div]
  rfl

theorem d11_eq {n : ℕ} {c : Matrix (Fin (n + 1)) (Fin (n + 1)) ℝ} {w : Fin (n + 1) → ℝ}
    {p : Matrix (Fin (n + 1)) (Fin (n + 1)) ℝ} (hp : p_from_w w = some p)
    (hw : ∀ j, 0 ≤ w j) :
    d11_of c p = (w ⬝ᵥ (c *ᵥ w)) / vnorm w ^ 2 := by
  unfold d11_of
  rw [dy_col0 c p 0]
  have h : ∀ a, p 0 a * (∑ b, c a b * p 0 b) = w a * (c *ᵥ w) a / vnorm w ^ 2 := by
    intro a
    rw [vv_eq hp hw a, row0_eq_of_nonneg hp hw a, sq]
    ring
  rw [Finset.sum_congr rfl fun a _ => h a, ← Finset.sum_div]
  rfl

theorem fc_eq {n : ℕ} {c : Matrix (Fin (n + 1)) (Fin (n + 1)) ℝ} {w : Fin (n + 1) → ℝ}
    {p : Matrix (Fin (n + 1)) (Fin (n + 1)) ℝ} {L : ℝ} (hp : p_from_w w = some p)
    (hw : ∀ j, 0 ≤ w j) (hwcw : w ⬝ᵥ (c *ᵥ w) ≠ 0) :
    ∑ a, p 0 a * ah c w L a = L / vnorm w := by
  have hwn : vnorm w ≠ 0 := ne_of_gt (p_from_w_vnorm_pos hp)
  have h : ∀ a, p 0 a * ah c w L a =
      w a * (c *ᵥ w) a * (L / vnorm w / (w ⬝ᵥ (c *ᵥ w))) := by
    intro a
    rw [row0_eq_of_nonneg hp hw a]
    unfold ah
    ring
  rw [Finset.sum_congr rfl fun a _ => h a, ← Finset.sum_mul,
    show ∑ a, w a * (c *ᵥ w) a = w ⬝ᵥ (c *ᵥ w) from rfl]
  field_simp
  ring

theorem col0_eq_ah {n : ℕ} {c : Matrix (Fin (n + 1)) (Fin (n + 1)) ℝ}
    {w : Fin (n + 1) → ℝ} {L q : ℝ} {M : ℕ} {V : Matrix (Fin n) (Fin n) ℝ}
    {p : Matrix (Fin (n + 1)) (Fin (n + 1)) ℝ} {h1 : 2 ≤ M} {h2 : M - 1 ≤ n}
    (hp : p_from_w w = some p) (hw : ∀ j, 0 ≤ w j)
    (hwcw : w ⬝ᵥ (c *ᵥ w) ≠ 0) (i : Fin (n + 1)) :
    (comp_core n c w L q M V p h1 h2).1 i 0 = ah c w L i := by
  have hwn : vnorm w ≠ 0 := ne_of_gt (p_from_w_vnorm_pos hp)
  rw [col0_formula hp i, fc_eq hp hw hwcw, vv_eq hp hw i, d11_eq hp hw,
    row0_eq_of_nonneg hp hw i]
  unfold ah
  field_simp
  ring

/-! ### The constrained quadratic minimization -/

theorem w_dot_ah {n : ℕ} (c : Matrix (Fin (n + 1)) (Fin (n + 1)) ℝ)
    (w : Fin (n + 1) → ℝ) (L : ℝ) (hwcw : w ⬝ᵥ (c *ᵥ w) ≠ 0) :
    w ⬝ᵥ ah c w L = L := by
  unfold ah
  have h : ∀ i, w i * (L * (c *ᵥ w) i / (w ⬝ᵥ (c *ᵥ w))) =
      w i * (c *ᵥ w) i * (L / (w ⬝ᵥ (c *ᵥ w))) := by
    intro i
    ring
  rw [show w ⬝ᵥ (fun i => L * (c *ᵥ w) i / (w ⬝ᵥ (c *ᵥ w))) =
    ∑ i, w i * (L * (c *ᵥ w) i / (w ⬝ᵥ (c *ᵥ w))) from rfl]
  rw [Finset.sum_congr rfl fun i _ => h i, ← Finset.sum_mul,
    show ∑ i, w i * (c *ᵥ w) i = w ⬝ᵥ (c *ᵥ w) from rfl]
  field_simp

theorem real_transpose_eq {n : ℕ} {c : Matrix (Fin (n + 1)) (Fin (n + 1)) ℝ}
    (hsym : c.IsHermitian) : cᵀ = c := by
  funext i j
  have h := congrFun (congrFun hsym.eq i) j
  simpa [Matrix.conjTranspose_apply] using h

theorem posdef_dot_pos {n : ℕ} {c : Matrix (Fin (n + 1)) (Fin (n + 1)) ℝ}
    (hpd : c.PosDef) {x : Fin (n + 1) → ℝ} (hx : x ≠ 0) : 0 < x ⬝ᵥ (c *ᵥ x) := by
  have h := hpd.2 x hx
  simpa using h

theorem p_from_w_w_ne_zero {n : ℕ} {w : Fin (n + 1) → ℝ}
    {p : Matrix (Fin (n + 1)) (Fin (n + 1)) ℝ} (hp : p_from_w w = some p) : w ≠ 0 := by
  obtain ⟨j0, hj0, _⟩ := p_from_w_eq hp
  intro hc
  exact eff_idx_ne_zero hj0 (by rw [hc]; rfl)

theorem cinv_mulVec_ah {n : ℕ} {c : Matrix (Fin (n + 1)) (Fin (n + 1)) ℝ}
    (hdet : IsUnit c.det) (w : Fin (n + 1) → ℝ) (L : ℝ) :
    c⁻¹ *ᵥ ah c w L = (L / (w ⬝ᵥ (c *ᵥ w))) • w := by
  have hinv : c⁻¹ * c = 1 := Matrix.nonsing_inv_mul c hdet
  have hah : ah c w L = (L / (w ⬝ᵥ (c *ᵥ w))) • (c *ᵥ w) := by
    funext i
    unfold ah
    simp only [Pi.smul_apply, smul_eq_mul]
    ring
  rw [hah, Matrix.mulVec_smul, Matrix.mulVec_mulVec, hinv, Matrix.one_mulVec]

theorem cross_term_zero {n : ℕ} {c : Matrix (Fin (n + 1)) (Fin (n + 1)) ℝ}
    (hpd : c.PosDef) (w : Fin (n + 1) → ℝ) (L : ℝ) {d : Fin (n + 1) → ℝ}
    (hwd : w ⬝ᵥ d = 0) :
    ah c w L ⬝ᵥ (c⁻¹ *ᵥ d) = 0 ∧ d ⬝ᵥ (c⁻¹ *ᵥ ah c w L) = 0 := by
  have hdet : IsUnit c.det := isUnit_iff_ne_zero.mpr hpd.det_pos.ne'
  have hsymm_inv : (c⁻¹)ᵀ = c⁻¹ := by
    rw [Matrix.transpose_nonsing_inv, real_transpose_eq hpd.isHermitian]
  constructor
  · rw [Matrix.dotProduct_mulVec]
    have hvm : ah c w L ᵥ* c⁻¹ = c⁻¹ *ᵥ ah c w L := by
      rw [← hsymm_inv, Matrix.vecMul_transpose, hsymm_inv]
    rw [hvm, cinv_mulVec_ah hdet w L, smul_dotProduct, hwd, smul_zero]
  · rw [cinv_mulVec_ah hdet w L, dotProduct_smul, dotProduct_comm d w, hwd, smul_zero]

theorem quad_decomp {n : ℕ} {c : Matrix (Fin (n + 1)) (Fin (n + 1)) ℝ}
    (hpd : c.PosDef) (w : Fin (n + 1) → ℝ) (L : ℝ) (x : Fin (n + 1) → ℝ)
    (hx : w ⬝ᵥ x = L) (hwcw : w ⬝ᵥ (c *ᵥ w) ≠ 0) :
    x ⬝ᵥ (c⁻¹ *ᵥ x) = ah c w L ⬝ᵥ (c⁻¹ *ᵥ ah c w L) +
      (x - ah c w L) ⬝ᵥ (c⁻¹ *ᵥ (x - ah c w L)) := by
  have hwd : w ⬝ᵥ (x - ah c w L) = 0 := by
    rw [dotProduct_sub, hx, w_dot_ah c w L hwcw, sub_self]
  obtain ⟨hc1, hc2⟩ := cross_term_zero hpd w L hwd
  have hx_eq : x = ah c w L + (x - ah c w L) := by
    funext i
    simp
  calc x ⬝ᵥ (c⁻¹ *ᵥ x)
      = (ah c w L + (x - ah c w L)) ⬝ᵥ (c⁻¹ *ᵥ (ah c w L + (x - ah c w L))) := by
        rw [← hx_eq]
    _ = ah c w L ⬝ᵥ (c⁻¹ *ᵥ ah c w L) + ah c w L ⬝ᵥ (c⁻¹ *ᵥ (x - ah c w L)) +
        ((x - ah c w L) ⬝ᵥ (c⁻¹ *ᵥ ah c w L) +
          (x - ah c w L) ⬝ᵥ (c⁻¹ *ᵥ (x - ah c w L))) := by
        rw [Matrix.mulVec_add, add_dotProduct, dotProduct_add, dotProduct_add]
    _ = ah c w L ⬝ᵥ (c⁻¹ *ᵥ ah c w L) +
        (x - ah c w L) ⬝ᵥ (c⁻¹ *ᵥ (x - ah c w L)) := by
        rw [hc1, hc2]
        ring

theorem quad_min {n : ℕ} {c : Matrix (Fin (n + 1)) (Fin (n + 1)) ℝ}
    (hpd : c.PosDef) (w : Fin (n + 1) → ℝ) (L : ℝ) (x : Fin (n + 1) → ℝ)
    (hx : w ⬝ᵥ x = L) (hwcw : w ⬝ᵥ (c *ᵥ w) ≠ 0) :
    ah c w L ⬝ᵥ (c⁻¹ *ᵥ ah c w L) ≤ x ⬝ᵥ (c⁻¹ *ᵥ x) ∧
      (x ⬝ᵥ (c⁻¹ *ᵥ x) = ah c w L ⬝ᵥ (c⁻¹ *ᵥ ah c w L) → x = ah c w L) := by
  have hdec := quad_decomp hpd w L x hx hwcw
  have hinvpd : (c⁻¹).PosDef := hpd.inv
  constructor
  · rw [hdec]
    rcases Classical.em (x - ah c w L = 0) with hz | hz
    · rw [hz]
      simp
    · have := posdef_dot_pos hinvpd hz
      linarith
  · intro heq
    rw [hdec] at heq
    have hzero : (x - ah c w L) ⬝ᵥ (c⁻¹ *ᵥ (x - ah c w L)) = 0 := by linarith
    by_contra hne
    have hdne : x - ah c w L ≠ 0 := sub_ne_zero_of_ne (by exact fun hcc => hne hcc)
    exact absurd hzero (ne_of_gt (posdef_dot_pos hinvpd hdne))

/-! ### Concrete central-scenario evaluations -/

theorem scen0_eq {n : ℕ} {c : Matrix (Fin (n + 1)) (Fin (n + 1)) ℝ}
    {w : Fin (n + 1) → ℝ} {L q : ℝ} {M : ℕ} {V : Matrix (Fin n) (Fin n) ℝ}
    {p : Matrix (Fin (n + 1)) (Fin (n + 1)) ℝ}
    (hp : p_from_w w = some p) (h1 : 2 ≤ M) (h2 : M - 1 ≤ n) :
    scen0 n c w L q M V =
      some (fun i => (comp_core n c w L q M V p h1 h2).1 i 0) := by
  unfold scen0
  rw [comp_scenarios_eq hp h1 h2]
  rfl

theorem EVS0m34 :
    scen0 1 (1 : Matrix (Fin 2) (Fin 2) ℝ) ![-3, 4] 625 (1 / 2) 2 ![![1]] =
      some ![21, 28] := by
  rw [scen0_eq (M := 2) EVPm34 (by norm_num) (by norm_num)]
  refine congrArg some ?_
  funext i
  rw [col0_formula EVPm34 i, vnorm_m34]
  have hah : ∀ a, ah (1 : Matrix (Fin 2) (Fin 2) ℝ) ![-3, 4] 625 a =
      (![(-75 : ℝ), 100]) a := by
    intro a
    unfold ah
    rw [Matrix.one_mulVec]
    have hval : (![(-3 : ℝ), 4]) ⬝ᵥ (![(-3 : ℝ), 4]) = 25 := by
      norm_num [Matrix.dotProduct, Fin.sum_univ_two]
    rw [hval]
    fin_cases a <;> norm_num
  have hd11 : d11_of (1 : Matrix (Fin 2) (Fin 2) ℝ)
      ![![3 / 5, 4 / 5], ![-(4 / 5), 3 / 5]] = 1 := by
    unfold d11_of dy_of
    simp only [Matrix.mul_apply, Matrix.transpose_apply, Matrix.one_apply]
    norm_num [Fin.sum_univ_succ, Fin.sum_univ_one]
  rw [hd11]
  simp only [hah]
  fin_cases i <;>
    norm_num [Fin.sum_univ_succ, Fin.sum_univ_one, Matrix.one_apply]

theorem EVS034d :
    scen0 1 (Matrix.diagonal ![1, 4]) ![3, 4] 73 (1 / 2) 2 ![![1]] =
      some ![3, 16] := by
  have hw : ∀ j, (0 : ℝ) ≤ (![3, 4] : Fin 2 → ℝ) j := by
    intro j
    fin_cases j <;> norm_num
  have hmv : (Matrix.diagonal ![1, 4] : Matrix (Fin 2) (Fin 2) ℝ) *ᵥ ![3, 4] =
      ![3, 16] := by
    funext b
    rw [Matrix.mulVec_diagonal]
    fin_cases b <;> norm_num
  have hval : (![(3 : ℝ), 4]) ⬝ᵥ (![(3 : ℝ), 16]) = 73 := by
    norm_num [Matrix.dotProduct, Fin.sum_univ_two]
  have hwcw : (![3, 4] : Fin 2 → ℝ) ⬝ᵥ
      ((Matrix.diagonal ![1, 4] : Matrix (Fin 2) (Fin 2) ℝ) *ᵥ ![3, 4]) ≠ 0 := by
    rw [hmv, hval]
    norm_num
  rw [scen0_eq (M := 2) EVP34 (by norm_num) (by norm_num)]
  refine congrArg some ?_
  funext i
  rw [col0_eq_ah EVP34 hw hwcw i]
  unfold ah
  rw [hmv, hval]
  fin_cases i <;> norm_num

theorem EVS0m3m4d :
    scen0 1 (Matrix.diagonal ![1, 4]) ![-3, -4] 73 (1 / 2) 2 ![![1]] =
      some ![-(363 / 25), -(184 / 25)] := by
  rw [scen0_eq (M := 2) EVPm3m4 (by norm_num) (by norm_num)]
  refine congrArg some ?_
  funext i
  rw [col0_formula EVPm3m4 i, vnorm_m3m4]
  have hah : ∀ a, ah (Matrix.diagonal ![1, 4]) ![-3, -4] 73 a =
      (![(-3 : ℝ), -16]) a := by
    intro a
    unfold ah
    have hmv : (Matrix.diagonal ![1, 4] : Matrix (Fin 2) (Fin 2) ℝ) *ᵥ ![-3, -4] =
        ![-3, -16] := by
      funext b
      rw [Matrix.mulVec_diagonal]
      fin_cases b <;> norm_num
    rw [hmv]
    have hval : (![(-3 : ℝ), -4]) ⬝ᵥ (![(-3 : ℝ), -16]) = 73 := by
      norm_num [Matrix.dotProduct, Fin.sum_univ_two]
    rw [hval]
    fin_cases a <;> norm_num
  have hd11 : d11_of (Matrix.diagonal ![1, 4])
      ![![3 / 5, 4 / 5], ![4 / 5, -(3 / 5)]] = 73 / 25 := by
    unfold d11_of dy_of
    simp only [Matrix.mul_apply, Matrix.transpose_apply]
    norm_num [Matrix.diagonal_apply, Fin.sum_univ_succ, Fin.sum_univ_one]
  rw [hd11]
  simp only [hah]
  fin_cases i <;>
    norm_num [Fin.sum_univ_succ, Fin.sum_univ_one, Matrix.diagonal_apply]

/-! ### The loss of every scenario column for non-negative weights -/

theorem w_dot_transform {n : ℕ} {w : Fin (n + 1) → ℝ}
    {p : Matrix (Fin (n + 1)) (Fin (n + 1)) ℝ} (hp : p_from_w w = some p)
    (hw : ∀ j, 0 ≤ w j) (v : Fin (n + 1) → ℝ) :
    w ⬝ᵥ (pᵀ *ᵥ v) = vnorm w * v 0 := by
  have hvn : 0 < vnorm w := p_from_w_vnorm_pos hp
  have hortho : ∀ k, ∑ a, p k a * p 0 a = if k = 0 then 1 else 0 := by
    intro k
    have h := congrFun (congrFun (p_from_w_mul_transpose hp) k) 0
    simpa [Matrix.mul_apply, Matrix.transpose_apply, Matrix.one_apply] using h
  have hw0 : ∀ a, w a = vnorm w * p 0 a := by
    intro a
    rw [row0_eq_of_nonneg hp hw a]
    field_simp
  simp only [Matrix.dotProduct, Matrix.mulVec, Matrix.transpose_apply]
  have h1 : ∀ i, w i * (∑ k, p k i * v k) = ∑ k, v k * (p k i * w i) := by
    intro i
    rw [Finset.mul_sum]
    exact Finset.sum_congr rfl fun k _ => by ring
  rw [Finset.sum_congr rfl fun i _ => h1 i, Finset.sum_comm]
  have h2 : ∀ k, ∑ i, v k * (p k i * w i) =
      v k * (vnorm w * (if k = 0 then 1 else 0)) := by
    intro k
    rw [← Finset.mul_sum]
    congr 1
    have h3 : ∀ a, p k a * w a = vnorm w * (p k a * p 0 a) := by
      intro a
      rw [hw0 a]
      ring
    rw [Finset.sum_congr rfl fun a _ => h3 a, ← Finset.mul_sum, hortho k]
  rw [Finset.sum_congr rfl fun k _ => h2 k]
  simp only [mul_ite, mul_one, mul_zero, Finset.sum_ite_eq', Finset.mem_univ, if_true]
  ring

/-! ### Negated weight vectors -/

theorem vnorm_neg {m : ℕ} (w : Fin m → ℝ) : vnorm (-w) = vnorm w := by
  unfold vnorm
  congr 1
  refine Finset.sum_congr rfl fun j _ => ?_
  rw [Pi.neg_apply, neg_sq]

theorem ah_neg {n : ℕ} (c : Matrix (Fin n) (Fin n) ℝ) (w : Fin n → ℝ) (L : ℝ) :
    ah c (-w) L = -(ah c w L) := by
  funext i
  unfold ah
  simp only [Matrix.mulVec_neg, Matrix.dotProduct_neg, Matrix.neg_dotProduct,
    neg_neg, Pi.neg_apply]
  ring

theorem row0_neg {n : ℕ} {w : Fin (n + 1) → ℝ}
    {P : Matrix (Fin (n + 1)) (Fin (n + 1)) ℝ} (hp : p_from_w (-w) = some P)
    (hw : ∀ j, 0 ≤ w j) (j : Fin (n + 1)) : P 0 j = w j / vnorm w := by
  rw [p_from_w_row0_abs hp j, vnorm_neg, Pi.neg_apply, abs_neg, abs_of_nonneg (hw j)]

/-! ### Claims C1, C2, C7, C9: the main procedure -/

/-- C1, counterexample: for `C = I`, `w = (-3, 4)`, `L = 625`, the central
scenario returned by `comp_scenarios` is `(21, 28)`, while
`x* = L·(C·w)/(w'·C·w) = (-75, 100)`: for weight vectors with negative
components the central column is not the claimed minimizer. -/
theorem C1_counterexample :
    ¬ (∀ v : Fin 2 → ℝ,
        scen0 1 (1 : Matrix (Fin 2) (Fin 2) ℝ) ![-3, 4] 625 (1 / 2) 2 ![![1]] =
          some v →
        v = ah (1 : Matrix (Fin 2) (Fin 2) ℝ) ![-3, 4] 625) := by
  intro h
  have h0 := congrFun (h ![21, 28] EVS0m34) 0
  have hah : ah (1 : Matrix (Fin 2) (Fin 2) ℝ) ![-3, 4] 625 0 = -75 := by
    unfold ah
    rw [Matrix.one_mulVec]
    have hval : (![(-3 : ℝ), 4]) ⬝ᵥ (![(-3 : ℝ), 4]) = 25 := by
      norm_num [Matrix.dotProduct, Fin.sum_univ_two]
    rw [hval]
    norm_num
  rw [hah] at h0
  norm_num at h0

/-- C1 (amended): for a positive-definite covariance matrix `c` and a weight
vector `w` with non-negative entries, whenever `comp_scenarios` returns a
result its central column (`Scenario_0`) equals `x* = L·(C·w)/(w'·C·w)`,
which is the unique minimizer of `x'·C⁻¹·x` subject to `w'·x = L`.  For
weight vectors with negative entries the central column differs from `x*`,
because the sign canonicalization inside `p_from_w` replaces the weight
direction by its entrywise absolute value. -/
theorem C1_central_scenario {n : ℕ} {c : Matrix (Fin (n + 1)) (Fin (n + 1)) ℝ}
    {w : Fin (n + 1) → ℝ} {L q : ℝ} {M : ℕ} {V : Matrix (Fin n) (Fin n) ℝ}
    {S : Matrix (Fin (n + 1)) (Fin (M + 1)) ℝ} {l : Fin (M + 1) → ℝ}
    (hpd : c.PosDef) (hw : ∀ j, 0 ≤ w j)
    (hc : comp_scenarios n c w L q M V = some (S, l)) :
    (fun i => S i 0) = ah c w L ∧
      ∀ x : Fin (n + 1) → ℝ, w ⬝ᵥ x = L →
        ah c w L ⬝ᵥ (c⁻¹ *ᵥ ah c w L) ≤ x ⬝ᵥ (c⁻¹ *ᵥ x) ∧
          (x ⬝ᵥ (c⁻¹ *ᵥ x) = ah c w L ⬝ᵥ (c⁻¹ *ᵥ ah c w L) → x = ah c w L) := by
  obtain ⟨p, h1, h2, hp, hS, hl⟩ := comp_scenarios_some hc
  have hwne : w ≠ 0 := p_from_w_w_ne_zero hp
  have hwcw : w ⬝ᵥ (c *ᵥ w) ≠ 0 := ne_of_gt (posdef_dot_pos hpd hwne)
  refine ⟨?_, fun x hx => quad_min hpd w L x hx hwcw⟩
  funext i
  show S i 0 = ah c w L i
  rw [hS]
  exact col0_eq_ah hp hw hwcw i

/-- C1, witness at `C = I`, `w = (1, 0)`, `L = 1`, `q = 1/2`, `M = 2`. -/
theorem C1_witness :
    (fun i => (comp_core 1 1 ![1, 0] 1 (1 / 2) 2 ![![1]] 1
        (by norm_num) (by norm_num)).1 i 0) =
      ah (1 : Matrix (Fin 2) (Fin 2) ℝ) ![1, 0] 1 := by
  have hw : ∀ j, (0 : ℝ) ≤ (![1, 0] : Fin 2 → ℝ) j := by
    intro j
    fin_cases j <;> norm_num
  exact (C1_central_scenario Matrix.PosDef.one hw
    (comp_scenarios_eq EVPe2 (by norm_num) (by norm_num))).1

/-- C2, counterexample: for `C = I`, `w = (-3, 4)`, `L = 625`, the central
scenario is `(21, 28)` and its portfolio loss is `w'·Scenario_0 = 49`, not
the target `625`: the loss constraint fails for weight vectors with negative
components. -/
theorem C2_counterexample :
    ¬ (∀ v : Fin 2 → ℝ,
        scen0 1 (1 : Matrix (Fin 2) (Fin 2) ℝ) ![-3, 4] 625 (1 / 2) 2 ![![1]] =
          some v →
        (![(-3 : ℝ), 4]) ⬝ᵥ v = 625) := by
  intro h
  have h0 := h ![21, 28] EVS0m34
  norm_num [Matrix.dotProduct, Fin.sum_univ_two] at h0

/-- C2 (amended): for a weight vector with non-negative entries (and
`w'·C·w ≠ 0`), every column of the scenario matrix returned by
`comp_scenarios`, the central one included, has portfolio loss exactly equal
to the target: `w'·Scenario_j = L`.  For weight vectors with negative
entries this fails (see the counterexample). -/
theorem C2_target_loss {n : ℕ} {c : Matrix (Fin (n + 1)) (Fin (n + 1)) ℝ}
    {w : Fin (n + 1) → ℝ} {L q : ℝ} {M : ℕ} {V : Matrix (Fin n) (Fin n) ℝ}
    {S : Matrix (Fin (n + 1)) (Fin (M + 1)) ℝ} {l : Fin (M + 1) → ℝ}
    (hw : ∀ j, 0 ≤ w j) (hwcw : w ⬝ᵥ (c *ᵥ w) ≠ 0)
    (hc : comp_scenarios n c w L q M V = some (S, l)) :
    ∀ j, w ⬝ᵥ (fun i => S i j) = L := by
  obtain ⟨p, h1, h2, hp, hS, hl⟩ := comp_scenarios_some hc
  have hvn : 0 < vnorm w := p_from_w_vnorm_pos hp
  have hvn' : vnorm w ≠ 0 := ne_of_gt hvn
  have hfc : (p *ᵥ ah c w L) 0 = L / vnorm w := fc_eq hp hw hwcw
  intro j
  refine Fin.cases ?_ (fun j2 => ?_) j
  · have hcol : (fun i => S i 0) = pᵀ *ᵥ (Fin.cons ((p *ᵥ ah c w L) 0)
        (ahy_of c w L p) : Fin (n + 1) → ℝ) := by
      funext i
      rw [hS]
      exact comp_core_col0 n c w L q M V p h1 h2 i
    rw [hcol, w_dot_transform hp hw, Fin.cons_zero, hfc]
    field_simp
  · have hcol : (fun i => S i j2.succ) = pᵀ *ᵥ (Fin.cons ((p *ᵥ ah c w L) 0)
        (fun i2 => radius q (dyh_of c p) (zlast_of n M V h1 h2) *
          zm_of n M V h1 h2 i2 j2 + ahy_of c w L p i2) : Fin (n + 1) → ℝ) := by
      funext i
      rw [hS]
      exact comp_core_col_succ n c w L q M V p h1 h2 i j2
    rw [hcol, w_dot_transform hp hw, Fin.cons_zero, hfc]
    field_simp

/-- C2, witness at `C = I`, `w = (1, 0)`, `L = 1`, `q = 1/2`, `M = 2`,
column `Scenario_1`. -/
theorem C2_witness :
    (![1, 0] : Fin 2 → ℝ) ⬝ᵥ
      (fun i => (comp_core 1 1 ![1, 0] 1 (1 / 2) 2 ![![1]] 1
        (by norm_num) (by norm_num)).1 i 1) = 1 := by
  have hw : ∀ j, (0 : ℝ) ≤ (![1, 0] : Fin 2 → ℝ) j := by
    intro j
    fin_cases j <;> norm_num
  have hwcw : (![1, 0] : Fin 2 → ℝ) ⬝ᵥ ((1 : Matrix (Fin 2) (Fin 2) ℝ) *ᵥ ![1, 0]) ≠ 0 := by
    rw [Matrix.one_mulVec]
    norm_num [Matrix.dotProduct, Fin.sum_univ_two]
  exact C2_target_loss hw hwcw
    (comp_scenarios_eq EVPe2 (by norm_num) (by norm_num)) 1

/-- C7, counterexample: a likelihood threshold outside `(0, 1)` is not
rejected: with `q = 1` (and otherwise valid input) `comp_scenarios` returns
a result instead of failing. -/
theorem C7_counterexample :
    (comp_scenarios 1 (1 : Matrix (Fin 2) (Fin 2) ℝ) ![1, 0] 1 1 2 ![![1]]).isSome =
      true := by
  rw [comp_scenarios_eq (M := 2) EVPe2 (by norm_num) (by norm_num)]
  rfl

/-- C7 (amended): `comp_scenarios` performs no explicit parameter
validation.  A call with `M < 2` does fail for every `q` (modelled by
`none`: the exception arises inside `standard_simplex_vertices`, not from a
named `InvalidParameterError`); but a likelihood threshold outside `(0, 1)`
is accepted and produces a result (see the counterexample with `q = 1`). -/
theorem C7_m_lt_two {n : ℕ} (c : Matrix (Fin (n + 1)) (Fin (n + 1)) ℝ)
    (w : Fin (n + 1) → ℝ) (L q : ℝ) (M : ℕ) (V : Matrix (Fin n) (Fin n) ℝ)
    (hM : M < 2) : comp_scenarios n c w L q M V = none :=
  comp_scenarios_none_of_M_lt_two c w L q M V hM

/-- C7, witness at `M = 1`. -/
theorem C7_witness :
    1 < 2 ∧
      comp_scenarios 1 (1 : Matrix (Fin 2) (Fin 2) ℝ) ![1, 0] 1 (1 / 2) 1 ![![1]] =
        none :=
  ⟨by norm_num, C7_m_lt_two 1 ![1, 0] 1 (1 / 2) 1 ![![1]] (by norm_num)⟩

/-- C9, counterexample: for `C = diag(1, 4)`, `w = (3, 4)`, `L = 73`, the
central scenario is `(3, 16)`, but for the negated weights `-w = (-3, -4)`
it is `(-363/25, -184/25)`, not `(-3, -16)`: negating the weight vector does
not negate the central scenario. -/
theorem C9_counterexample :
    ¬ (∀ v u : Fin 2 → ℝ,
        scen0 1 (Matrix.diagonal ![1, 4]) ![3, 4] 73 (1 / 2) 2 ![![1]] = some v →
        scen0 1 (Matrix.diagonal ![1, 4]) ![-3, -4] 73 (1 / 2) 2 ![![1]] = some u →
        ∀ i, u i = -(v i)) := by
  intro h
  have h0 := h ![3, 16] ![-(363 / 25), -(184 / 25)] EVS034d EVS0m3m4d 0
  norm_num at h0

/-- C9 (amended): for a weight vector `w` with non-negative entries (and
`w'·C·w ≠ 0`), negating the weights while holding `L` fixed does not negate
the central scenario; instead it shifts it along `w`:
`Scenario_0(C, -w) = Scenario_0(C, w) - (2L/‖w‖²)·w`.  The two central
scenarios coincide in the hyperplane component and differ only in the
weight-direction component, whose sign the canonicalization in `p_from_w`
erases. -/
theorem C9_negation {n : ℕ} {c : Matrix (Fin (n + 1)) (Fin (n + 1)) ℝ}
    {w : Fin (n + 1) → ℝ} {L q : ℝ} {M : ℕ} {V : Matrix (Fin n) (Fin n) ℝ}
    {S S' : Matrix (Fin (n + 1)) (Fin (M + 1)) ℝ} {l l' : Fin (M + 1) → ℝ}
    (hw : ∀ j, 0 ≤ w j) (hwcw : w ⬝ᵥ (c *ᵥ w) ≠ 0)
    (hc : comp_scenarios n c w L q M V = some (S, l))
    (hc' : comp_scenarios n c (-w) L q M V = some (S', l')) :
    ∀ i, S' i 0 = S i 0 - 2 * L / vnorm w ^ 2 * w i := by
  obtain ⟨p, h1, h2, hp, hS, _⟩ := comp_scenarios_some hc
  obtain ⟨p', h1', h2', hp', hS', _⟩ := comp_scenarios_some hc'
  have hvn : 0 < vnorm w := p_from_w_vnorm_pos hp
  have hvn' : vnorm w ≠ 0 := ne_of_gt hvn
  have hrow : ∀ j, p' 0 j = p 0 j := by
    intro j
    rw [row0_neg hp' hw j, row0_eq_of_nonneg hp hw j]
  have hd11 : d11_of c p' = d11_of c p := by
    unfold d11_of
    rw [dy_col0 c p' 0, dy_col0 c p 0]
    refine Finset.sum_congr rfl fun b _ => ?_
    rw [hrow b]
    refine congrArg _ (Finset.sum_congr rfl fun a _ => ?_)
    rw [hrow a]
  have hF : ∑ a, p' 0 a * ah c (-w) L a = -(L / vnorm w) := by
    have h1a : ∀ a, p' 0 a * ah c (-w) L a = -(p 0 a * ah c w L a) := by
      intro a
      rw [hrow a, ah_neg]
      rw [Pi.neg_apply]
      ring
    rw [Finset.sum_congr rfl fun a _ => h1a a, Finset.sum_neg_distrib]
    have hfc : ∑ a, p 0 a * ah c w L a = L / vnorm w := fc_eq hp hw hwcw
    rw [hfc]
  have hcc : ∀ i, ∑ a, c i a * p' 0 a = ∑ a, c i a * p 0 a := by
    intro i
    refine Finset.sum_congr rfl fun a _ => ?_
    rw [hrow a]
  intro i
  have hL : S' i 0 = -(L / vnorm w) * p 0 i +
      L / d11_of c p / vnorm w *
        ((∑ a, c i a * p 0 a) - d11_of c p * p 0 i) := by
    rw [hS', col0_formula hp' i, hF, hd11, vnorm_neg, hrow i, hcc i]
  have hR : S i 0 = (L / vnorm w) * p 0 i +
      L / d11_of c p / vnorm w *
        ((∑ a, c i a * p 0 a) - d11_of c p * p 0 i) := by
    rw [hS, col0_formula hp i]
    have hfc : ∑ a, p 0 a * ah c w L a = L / vnorm w := fc_eq hp hw hwcw
    rw [hfc]
  rw [hL, hR, row0_eq_of_nonneg hp hw i]
  ring

/-- C9, witness at `C = I`, `w = (1, 0)`, `L = 1`, `q = 1/2`, `M = 2`,
entry `0` of the central columns. -/
theorem C9_witness :
    (comp_core 1 1 (-(![1, 0] : Fin 2 → ℝ)) 1 (1 / 2) 2 ![![1]] 1
        (by norm_num) (by norm_num)).1 0 0 =
      (comp_core 1 1 ![1, 0] 1 (1 / 2) 2 ![![1]] 1
        (by norm_num) (by norm_num)).1 0 0 -
        2 * 1 / vnorm ![1, 0] ^ 2 * (![1, 0] : Fin 2 → ℝ) 0 := by
  have hw : ∀ j, (0 : ℝ) ≤ (![1, 0] : Fin 2 → ℝ) j := by
    intro j
    fin_cases j <;> norm_num
  have hneg : (-(![1, 0]) : Fin 2 → ℝ) = ![(-1 : ℝ), 0] := by
    funext j
    fin_cases j <;> simp
  have hpme : p_from_w (-(![1, 0] : Fin 2 → ℝ)) = some 1 := by
    rw [hneg]
    exact EVPme2
  have hwcw : (![1, 0] : Fin 2 → ℝ) ⬝ᵥ ((1 : Matrix (Fin 2) (Fin 2) ℝ) *ᵥ ![1, 0]) ≠ 0 := by
    rw [Matrix.one_mulVec]
    norm_num [Matrix.dotProduct, Fin.sum_univ_two]
  exact C9_negation hw hwcw
    (comp_scenarios_eq EVPe2 (by norm_num) (by norm_num))
    (comp_scenarios_eq hpme (by norm_num) (by norm_num)) 0

/-! ### Positive definiteness in the transformed space -/

theorem posdef_dot_pos_gen {m : ℕ} {A : Matrix (Fin m) (Fin m) ℝ}
    (hA : A.PosDef) {x : Fin m → ℝ} (hx : x ≠ 0) : 0 < x ⬝ᵥ (A *ᵥ x) := by
  have h := hA.2 x hx
  simpa using h

theorem posdef_of_dot {m : ℕ} {A : Matrix (Fin m) (Fin m) ℝ}
    (hsym : Aᵀ = A) (hpos : ∀ x : Fin m → ℝ, x ≠ 0 → 0 < x ⬝ᵥ (A *ᵥ x)) :
    A.PosDef := by
  constructor
  · show Aᴴ = A
    have hconj : Aᴴ = Aᵀ := by
      funext i j
      rw [Matrix.conjTranspose_apply, Matrix.transpose_apply, star_trivial]
    rw [hconj, hsym]
  · intro x hx
    simpa using hpos x hx

theorem transpose_eq_gen {m : ℕ} {A : Matrix (Fin m) (Fin m) ℝ}
    (hA : A.IsHermitian) : Aᵀ = A := by
  funext i j
  have h := congrFun (congrFun hA.eq i) j
  simpa [Matrix.conjTranspose_apply] using h

theorem orth_transpose_mulVec_ne_zero {m : ℕ} {p : Matrix (Fin m) (Fin m) ℝ}
    (hpo : p * pᵀ = 1) {x : Fin m → ℝ} (hx : x ≠ 0) : pᵀ *ᵥ x ≠ 0 := by
  intro h0
  apply hx
  have h1 : p *ᵥ (pᵀ *ᵥ x) = p *ᵥ 0 := by rw [h0]
  rw [Matrix.mulVec_mulVec, hpo, Matrix.one_mulVec, Matrix.mulVec_zero] at h1
  exact h1

theorem dy_sym {n : ℕ} {c : Matrix (Fin (n + 1)) (Fin (n + 1)) ℝ}
    (hcsym : cᵀ = c) (p : Matrix (Fin (n + 1)) (Fin (n + 1)) ℝ) :
    (dy_of c p)ᵀ = dy_of c p := by
  unfold dy_of
  rw [Matrix.transpose_mul, Matrix.transpose_mul, Matrix.transpose_transpose, hcsym,
    ← Matrix.mul_assoc]

theorem vecMul_eq_transpose_mulVec {m : ℕ} (p : Matrix (Fin m) (Fin m) ℝ)
    (v : Fin m → ℝ) : v ᵥ* p = pᵀ *ᵥ v := by
  conv_lhs => rw [← Matrix.transpose_transpose p]
  rw [Matrix.vecMul_transpose]

theorem dy_posdef {n : ℕ} {c p : Matrix (Fin (n + 1)) (Fin (n + 1)) ℝ}
    (hpd : c.PosDef) (hpo : p * pᵀ = 1) : (dy_of c p).PosDef := by
  refine posdef_of_dot (dy_sym (real_transpose_eq hpd.isHermitian) p) ?_
  intro x hx
  have hxt : pᵀ *ᵥ x ≠ 0 := orth_transpose_mulVec_ne_zero hpo hx
  have h := posdef_dot_pos hpd hxt
  have heq : x ⬝ᵥ (dy_of c p *ᵥ x) = (pᵀ *ᵥ x) ⬝ᵥ (c *ᵥ (pᵀ *ᵥ x)) := by
    unfold dy_of
    rw [← Matrix.mulVec_mulVec, ← Matrix.mulVec_mulVec, Matrix.dotProduct_mulVec]
    congr 1
    exact vecMul_eq_transpose_mulVec p x
  rw [heq]
  exact h

theorem quad_cons_expand {n : ℕ} (D : Matrix (Fin (n + 1)) (Fin (n + 1)) ℝ)
    (x0 : ℝ) (y : Fin n → ℝ) :
    (Fin.cons x0 y : Fin (n + 1) → ℝ) ⬝ᵥ (D *ᵥ (Fin.cons x0 y : Fin (n + 1) → ℝ)) =
      x0 * (D 0 0 * x0 + ∑ j2, D 0 j2.succ * y j2) +
        ∑ k2, y k2 * (D k2.succ 0 * x0 + ∑ j2, D k2.succ j2.succ * y j2) := by
  have hDx : ∀ k, (D *ᵥ (Fin.cons x0 y : Fin (n + 1) → ℝ)) k =
      D k 0 * x0 + ∑ j2, D k j2.succ * y j2 := by
    intro k
    show ∑ j, D k j * (Fin.cons x0 y : Fin (n + 1) → ℝ) j = _
    rw [Fin.sum_univ_succ]
    simp only [Fin.cons_zero, Fin.cons_succ]
  show ∑ k, (Fin.cons x0 y : Fin (n + 1) → ℝ) k *
      (D *ᵥ (Fin.cons x0 y : Fin (n + 1) → ℝ)) k = _
  rw [Fin.sum_univ_succ, hDx 0]
  simp only [Fin.cons_zero, Fin.cons_succ]
  congr 1
  refine Finset.sum_congr rfl fun k2 _ => ?_
  rw [hDx k2.succ]

theorem d11_pos {n : ℕ} {c p : Matrix (Fin (n + 1)) (Fin (n + 1)) ℝ}
    (hD : (dy_of c p).PosDef) : 0 < d11_of c p := by
  have hu : (Fin.cons 1 0 : Fin (n + 1) → ℝ) ≠ 0 := by
    intro h
    have h0 := congrFun h 0
    rw [Fin.cons_zero] at h0
    exact one_ne_zero h0
  have h := posdef_dot_pos_gen hD hu
  rw [quad_cons_expand] at h
  simpa using h

theorem dyh_quad_eq {n : ℕ} {c p : Matrix (Fin (n + 1)) (Fin (n + 1)) ℝ}
    (hsym0 : ∀ j2 : Fin n, dy_of c p 0 j2.succ = dI1_of c p j2)
    (hd11 : d11_of c p ≠ 0) (y : Fin n → ℝ) :
    y ⬝ᵥ (dyh_of c p *ᵥ y) =
      (Fin.cons (-(∑ j2, dI1_of c p j2 * y j2) / d11_of c p) y : Fin (n + 1) → ℝ) ⬝ᵥ
        (dy_of c p *ᵥ
          (Fin.cons (-(∑ j2, dI1_of c p j2 * y j2) / d11_of c p) y : Fin (n + 1) → ℝ)) := by
  rw [quad_cons_expand]
  have hD00 : dy_of c p 0 0 = d11_of c p := rfl
  have hDs0 : ∀ k2 : Fin n, dy_of c p k2.succ 0 = dI1_of c p k2 := fun k2 => rfl
  simp only [hD00, hsym0, hDs0]
  have hrow : ∀ k2 : Fin n, (∑ j2, dyh_of c p k2 j2 * y j2) =
      (∑ j2, dy_of c p k2.succ j2.succ * y j2) -
        dI1_of c p k2 * (∑ j2, dI1_of c p j2 * y j2) / d11_of c p := by
    intro k2
    have h1 : ∀ j2 : Fin n, dyh_of c p k2 j2 * y j2 =
        dy_of c p k2.succ j2.succ * y j2 -
          dI1_of c p k2 * (dI1_of c p j2 * y j2) / d11_of c p := by
      intro j2
      unfold dyh_of
      ring
    rw [Finset.sum_congr rfl fun j2 _ => h1 j2, Finset.sum_sub_distrib,
      ← Finset.sum_div, ← Finset.mul_sum]
  show ∑ k2, y k2 * (∑ j2, dyh_of c p k2 j2 * y j2) = _
  have hL : ∑ k2, y k2 * (∑ j2, dyh_of c p k2 j2 * y j2) =
      (∑ k2, y k2 * (∑ j2, dy_of c p k2.succ j2.succ * y j2)) -
        (∑ k2, y k2 * dI1_of c p k2) * (∑ j2, dI1_of c p j2 * y j2) / d11_of c p := by
    have h1 : ∀ k2, y k2 * (∑ j2, dyh_of c p k2 j2 * y j2) =
        y k2 * (∑ j2, dy_of c p k2.succ j2.succ * y j2) -
          y k2 * dI1_of c p k2 * (∑ j2, dI1_of c p j2 * y j2) / d11_of c p := by
      intro k2
      rw [hrow k2]
      ring
    rw [Finset.sum_congr rfl fun k2 _ => h1 k2, Finset.sum_sub_distrib,
      ← Finset.sum_div, ← Finset.sum_mul]
  rw [hL]
  have hsplit : ∑ k2, y k2 * (dI1_of c p k2 *
        (-(∑ j2, dI1_of c p j2 * y j2) / d11_of c p) +
        ∑ j2, dy_of c p k2.succ j2.succ * y j2) =
      (∑ k2, y k2 * dI1_of c p k2) * (-(∑ j2, dI1_of c p j2 * y j2) / d11_of c p) +
        ∑ k2, y k2 * (∑ j2, dy_of c p k2.succ j2.succ * y j2) := by
    rw [Finset.sum_mul, ← Finset.sum_add_distrib]
    refine Finset.sum_congr rfl fun k2 _ => ?_
    ring
  rw [hsplit]
  field_simp
  ring

theorem dyh_posdef {n : ℕ} {c p : Matrix (Fin (n + 1)) (Fin (n + 1)) ℝ}
    (hD : (dy_of c p).PosDef) : (dyh_of c p).PosDef := by
  have hsymD := transpose_eq_gen hD.isHermitian
  have hsym0 : ∀ j2 : Fin n, dy_of c p 0 j2.succ = dI1_of c p j2 := by
    intro j2
    have h := congrFun (congrFun hsymD 0) j2.succ
    rw [Matrix.transpose_apply] at h
    exact h.symm
  have hd11p : 0 < d11_of c p := d11_pos hD
  refine posdef_of_dot ?_ ?_
  · funext i j
    rw [Matrix.transpose_apply]
    unfold dyh_of
    have hij : dy_of c p j.succ i.succ = dy_of c p i.succ j.succ := by
      have h := congrFun (congrFun hsymD i.succ) j.succ
      rw [Matrix.transpose_apply] at h
      exact h
    rw [hij]
    ring
  · intro y hy
    have heq := dyh_quad_eq hsym0 (ne_of_gt hd11p) y
    rw [heq]
    refine posdef_dot_pos_gen hD ?_
    intro h0
    apply hy
    funext k2
    have hk := congrFun h0 k2.succ
    rw [Fin.cons_succ] at hk
    exact hk

theorem quad_transform {n : ℕ} {c p : Matrix (Fin (n + 1)) (Fin (n + 1)) ℝ}
    (hdet : IsUnit c.det) (hpo : p * pᵀ = 1) (v : Fin (n + 1) → ℝ) :
    (pᵀ *ᵥ v) ⬝ᵥ (c⁻¹ *ᵥ (pᵀ *ᵥ v)) = v ⬝ᵥ ((dy_of c p)⁻¹ *ᵥ v) := by
  have hop : pᵀ * p = 1 := Matrix.mul_eq_one_comm.mp hpo
  have hDinv : (dy_of c p)⁻¹ = p * c⁻¹ * pᵀ := by
    apply Matrix.inv_eq_right_inv
    show p * c * pᵀ * (p * c⁻¹ * pᵀ) = 1
    simp only [Matrix.mul_assoc]
    rw [← Matrix.mul_assoc pᵀ p, hop, Matrix.one_mul, ← Matrix.mul_assoc c c⁻¹,
      Matrix.mul_nonsing_inv c hdet, Matrix.one_mul, hpo]
  rw [hDinv]
  rw [← Matrix.mulVec_mulVec, ← Matrix.mulVec_mulVec,
    Matrix.dotProduct_mulVec v p (c⁻¹ *ᵥ (pᵀ *ᵥ v)), vecMul_eq_transpose_mulVec p v]

theorem quad_pad {n : ℕ} {c p : Matrix (Fin (n + 1)) (Fin (n + 1)) ℝ}
    (hsym0 : ∀ j2 : Fin n, dy_of c p 0 j2.succ = dI1_of c p j2)
    (hDdet : IsUnit (dy_of c p).det) (hdyhdet : IsUnit (dyh_of c p).det)
    (hd11 : d11_of c p ≠ 0) (z : Fin n → ℝ) :
    (Fin.cons 0 z : Fin (n + 1) → ℝ) ⬝ᵥ
        ((dy_of c p)⁻¹ *ᵥ (Fin.cons 0 z : Fin (n + 1) → ℝ)) =
      quadratic_form_inv (dyh_of c p) z := by
  set x := (dy_of c p)⁻¹ *ᵥ (Fin.cons 0 z : Fin (n + 1) → ℝ) with hxdef
  have hDx : dy_of c p *ᵥ x = (Fin.cons 0 z : Fin (n + 1) → ℝ) := by
    rw [hxdef, Matrix.mulVec_mulVec, Matrix.mul_nonsing_inv _ hDdet, Matrix.one_mulVec]
  have hDxk : ∀ k, (dy_of c p *ᵥ x) k =
      dy_of c p k 0 * x 0 + ∑ j2 : Fin n, dy_of c p k j2.succ * x j2.succ := by
    intro k
    show ∑ j, dy_of c p k j * x j = _
    rw [Fin.sum_univ_succ]
  have hrow0 : d11_of c p * x 0 + ∑ j2 : Fin n, dI1_of c p j2 * x j2.succ = 0 := by
    have h := congrFun hDx 0
    rw [hDxk 0, Fin.cons_zero] at h
    simp only [hsym0] at h
    exact h
  have hrowsucc : ∀ i : Fin n,
      dI1_of c p i * x 0 + ∑ j2 : Fin n, dy_of c p i.succ j2.succ * x j2.succ = z i := by
    intro i
    have h := congrFun hDx i.succ
    rw [hDxk i.succ, Fin.cons_succ] at h
    exact h
  have hdyhx : dyh_of c p *ᵥ (fun j2 => x j2.succ) = z := by
    funext i
    show ∑ j2 : Fin n, dyh_of c p i j2 * x j2.succ = z i
    have h1 : ∀ j2 : Fin n, dyh_of c p i j2 * x j2.succ =
        dy_of c p i.succ j2.succ * x j2.succ -
          dI1_of c p i * (dI1_of c p j2 * x j2.succ) / d11_of c p := by
      intro j2
      unfold dyh_of
      ring
    rw [Finset.sum_congr rfl fun j2 _ => h1 j2, Finset.sum_sub_distrib,
      ← Finset.sum_div, ← Finset.mul_sum]
    have hs : ∑ j2 : Fin n, dI1_of c p j2 * x j2.succ = -(d11_of c p * x 0) := by
      linarith [hrow0]
    rw [hs]
    have hdiv : dI1_of c p i * -(d11_of c p * x 0) / d11_of c p =
        -(dI1_of c p i * x 0) := by
      field_simp
      ring
    rw [hdiv]
    linarith [hrowsucc i]
  have hxt : (fun j2 => x j2.succ) = (dyh_of c p)⁻¹ *ᵥ z := by
    rw [← hdyhx, Matrix.mulVec_mulVec, Matrix.nonsing_inv_mul _ hdyhdet,
      Matrix.one_mulVec]
  have hzx : ∀ j2, x j2.succ = ((dyh_of c p)⁻¹ *ᵥ z) j2 := fun j2 => congrFun hxt j2
  show (Fin.cons 0 z : Fin (n + 1) → ℝ) ⬝ᵥ x = quadratic_form_inv (dyh_of c p) z
  unfold quadratic_form_inv
  show ∑ k, (Fin.cons 0 z : Fin (n + 1) → ℝ) k * x k = _
  rw [Fin.sum_univ_succ, Fin.cons_zero, zero_mul, zero_add]
  simp only [Fin.cons_succ]
  rw [Finset.sum_congr rfl fun j2 _ => by rw [hzx j2]]
  rfl

theorem quad_add_expand {m : ℕ} (E : Matrix (Fin m) (Fin m) ℝ) (u v : Fin m → ℝ)
    (r : ℝ) :
    (u + r • v) ⬝ᵥ (E *ᵥ (u + r • v)) =
      u ⬝ᵥ (E *ᵥ u) + r * (v ⬝ᵥ (E *ᵥ u)) + r * (u ⬝ᵥ (E *ᵥ v)) +
        r * r * (v ⬝ᵥ (E *ᵥ v)) := by
  simp only [Matrix.mulVec_add, Matrix.mulVec_smul, dotProduct_add, add_dotProduct,
    dotProduct_smul, smul_dotProduct, smul_eq_mul]
  ring

theorem pad_cross_zero {n : ℕ} {c p : Matrix (Fin (n + 1)) (Fin (n + 1)) ℝ}
    {w : Fin (n + 1) → ℝ} {L : ℝ}
    (hp : p_from_w w = some p) (hw : ∀ j, 0 ≤ w j) (hwcw : w ⬝ᵥ (c *ᵥ w) ≠ 0)
    (hDdet : IsUnit (dy_of c p).det) (hd11 : d11_of c p ≠ 0) (z : Fin n → ℝ) :
    (Fin.cons 0 z : Fin (n + 1) → ℝ) ⬝ᵥ ((dy_of c p)⁻¹ *ᵥ
      (Fin.cons ((p *ᵥ ah c w L) 0) (ahy_of c w L p) : Fin (n + 1) → ℝ)) = 0 := by
  have hvn : vnorm w ≠ 0 := ne_of_gt (p_from_w_vnorm_pos hp)
  have hfc : (p *ᵥ ah c w L) 0 = L / vnorm w := fc_eq hp hw hwcw
  have hv0 : (Fin.cons ((p *ᵥ ah c w L) 0) (ahy_of c w L p) : Fin (n + 1) → ℝ) =
      dy_of c p *ᵥ (Fin.cons (L / (d11_of c p * vnorm w)) 0 : Fin (n + 1) → ℝ) := by
    funext k
    have hDu : (dy_of c p *ᵥ
        (Fin.cons (L / (d11_of c p * vnorm w)) 0 : Fin (n + 1) → ℝ)) k =
        dy_of c p k 0 * (L / (d11_of c p * vnorm w)) := by
      show ∑ j, dy_of c p k j *
        (Fin.cons (L / (d11_of c p * vnorm w)) 0 : Fin (n + 1) → ℝ) j = _
      rw [Fin.sum_univ_succ]
      simp [Fin.cons_zero, Fin.cons_succ]
    rw [hDu]
    refine Fin.cases ?_ (fun k2 => ?_) k
    · rw [Fin.cons_zero, hfc]
      have hD00 : dy_of c p 0 0 = d11_of c p := rfl
      rw [hD00]
      field_simp
      ring
    · rw [Fin.cons_succ]
      show ahy_of c w L p k2 = dy_of c p k2.succ 0 * (L / (d11_of c p * vnorm w))
      have hDk0 : dy_of c p k2.succ 0 = dI1_of c p k2 := rfl
      rw [hDk0]
      unfold ahy_of
      field_simp
      ring
  rw [hv0, Matrix.mulVec_mulVec, Matrix.nonsing_inv_mul _ hDdet, Matrix.one_mulVec]
  show ∑ k, (Fin.cons 0 z : Fin (n + 1) → ℝ) k *
      (Fin.cons (L / (d11_of c p * vnorm w)) 0 : Fin (n + 1) → ℝ) k = 0
  rw [Fin.sum_univ_succ]
  simp [Fin.cons_zero, Fin.cons_succ]

/-! ### The multivariate normal density ratio -/

theorem mvn_pdf_pos {m : ℕ} {c : Matrix (Fin m) (Fin m) ℝ} (hdet : 0 < c.det)
    (x : Fin m → ℝ) : 0 < mvn_pdf c x := by
  unfold mvn_pdf
  refine div_pos (Real.exp_pos _) (Real.sqrt_pos.mpr ?_)
  exact mul_pos (pow_pos (by positivity) m) hdet

theorem mvn_pdf_ratio {m : ℕ} {c : Matrix (Fin m) (Fin m) ℝ} (hdet : 0 < c.det)
    (x y : Fin m → ℝ) :
    mvn_pdf c x / mvn_pdf c y =
      Real.exp ((y ⬝ᵥ (c⁻¹ *ᵥ y) - x ⬝ᵥ (c⁻¹ *ᵥ x)) / 2) := by
  unfold mvn_pdf
  have hK : Real.sqrt ((2 * Real.pi) ^ m * c.det) ≠ 0 :=
    ne_of_gt (Real.sqrt_pos.mpr (mul_pos (pow_pos (by positivity) m) hdet))
  rw [div_div_div_comm, div_self hK, div_one, ← Real.exp_sub]
  congr 1
  ring

/-! ### The rotated simplex vertices keep their length -/

theorem rotated_sq {n m2 : ℕ} {V : Matrix (Fin n) (Fin n) ℝ} (hV : Vᵀ * V = 1)
    (h2 : m2 ≤ n) (T : Fin m2 → ℝ) :
    ∑ i, (∑ k, V i (Fin.castLE h2 k) * T k) * (∑ k, V i (Fin.castLE h2 k) * T k) =
      ∑ k, T k * T k := by
  have hcols : ∀ a b : Fin n, ∑ i, V i a * V i b = if a = b then 1 else 0 := by
    intro a b
    have h := congrFun (congrFun hV a) b
    simpa [Matrix.mul_apply, Matrix.transpose_apply, Matrix.one_apply] using h
  have hexp : ∀ i, (∑ k, V i (Fin.castLE h2 k) * T k) *
      (∑ k, V i (Fin.castLE h2 k) * T k) =
      ∑ k, ∑ k2, T k * T k2 * (V i (Fin.castLE h2 k) * V i (Fin.castLE h2 k2)) := by
    intro i
    rw [Finset.sum_mul_sum]
    refine Finset.sum_congr rfl fun k _ => Finset.sum_congr rfl fun k2 _ => by ring
  rw [Finset.sum_congr rfl fun i _ => hexp i, Finset.sum_comm]
  have hstep : ∀ k, ∑ i, ∑ k2, T k * T k2 *
      (V i (Fin.castLE h2 k) * V i (Fin.castLE h2 k2)) = T k * T k := by
    intro k
    rw [Finset.sum_comm]
    have hinner : ∀ k2, ∑ i, T k * T k2 *
        (V i (Fin.castLE h2 k) * V i (Fin.castLE h2 k2)) =
        T k * T k2 * (if k = k2 then 1 else 0) := by
      intro k2
      rw [← Finset.mul_sum, hcols]
      by_cases hkk : k = k2
      · rw [if_pos (show Fin.castLE h2 k = Fin.castLE h2 k2 by rw [hkk]), if_pos hkk]
      · rw [if_neg (fun hcc => hkk (Fin.castLE_injective h2 hcc)), if_neg hkk]
    rw [Finset.sum_congr rfl fun k2 _ => hinner k2]
    simp [mul_ite, Finset.sum_ite_eq, Finset.sum_ite_eq']
  rw [Finset.sum_congr rfl fun k _ => hstep k]

theorem zlast_sq {n M : ℕ} {V : Matrix (Fin n) (Fin n) ℝ} (hV : Vᵀ * V = 1)
    (h1 : 2 ≤ M) (h2 : M - 1 ≤ n) :
    zlast_of n M V h1 h2 ⬝ᵥ zlast_of n M V h1 h2 = 1 := by
  obtain ⟨m, rfl⟩ : ∃ m, M = m + 2 := ⟨M - 2, by omega⟩
  have h2' : m + 1 ≤ n := h2
  show ∑ i, zlast_of n (m + 2) V h1 h2 i * zlast_of n (m + 2) V h1 h2 i = 1
  have hz : ∀ i, zlast_of n (m + 2) V h1 h2 i =
      ∑ k : Fin (m + 1), V i (Fin.castLE h2' k) *
        ssv_core (m + 2) h1 k ⟨m + 1, by omega⟩ := by
    intro i
    rfl
  simp only [hz]
  rw [rotated_sq hV h2']
  have hcol := ssv_core_colsq m h1 ⟨m + 1, by omega⟩
  rw [← hcol]
  exact Finset.sum_congr rfl fun k _ => by rw [sq]

/-! ### The relative likelihood of the last scenario -/

theorem lik_last_eq {n : ℕ} {c p : Matrix (Fin (n + 1)) (Fin (n + 1)) ℝ}
    {w : Fin (n + 1) → ℝ} {L q : ℝ} {M : ℕ} {V : Matrix (Fin n) (Fin n) ℝ}
    (hpd : c.PosDef) (hw : ∀ j, 0 ≤ w j) (hq0 : 0 < q) (hq1 : q ≤ 1)
    (hV : Vᵀ * V = 1) (hp : p_from_w w = some p) (h1 : 2 ≤ M) (h2 : M - 1 ≤ n) :
    (comp_core n c w L q M V p h1 h2).2 (Fin.last M) = q := by
  have hdet : 0 < c.det := hpd.det_pos
  have hcdet : IsUnit c.det := isUnit_iff_ne_zero.mpr (ne_of_gt hdet)
  have hwne : w ≠ 0 := p_from_w_w_ne_zero hp
  have hwcw : w ⬝ᵥ (c *ᵥ w) ≠ 0 := ne_of_gt (posdef_dot_pos hpd hwne)
  have hpo : p * pᵀ = 1 := p_from_w_mul_transpose hp
  have hD : (dy_of c p).PosDef := dy_posdef hpd hpo
  have hDdet : IsUnit (dy_of c p).det := isUnit_iff_ne_zero.mpr (ne_of_gt hD.det_pos)
  have hdyhpd : (dyh_of c p).PosDef := dyh_posdef hD
  have hdyhdet : IsUnit (dyh_of c p).det :=
    isUnit_iff_ne_zero.mpr (ne_of_gt hdyhpd.det_pos)
  have hd11p : 0 < d11_of c p := d11_pos hD
  have hsym0 : ∀ j2 : Fin n, dy_of c p 0 j2.succ = dI1_of c p j2 := by
    intro j2
    have h := congrFun (congrFun (transpose_eq_gen hD.isHermitian) 0) j2.succ
    rw [Matrix.transpose_apply] at h
    exact h.symm
  have hzl1 : zlast_of n M V h1 h2 ⬝ᵥ zlast_of n M V h1 h2 = 1 := zlast_sq hV h1 h2
  have hzlne : zlast_of n M V h1 h2 ≠ 0 := by
    intro h0
    rw [h0] at hzl1
    simp at hzl1
  have hdenom : 0 < quadratic_form_inv (dyh_of c p) (zlast_of n M V h1 h2) := by
    unfold quadratic_form_inv
    exact posdef_dot_pos_gen hdyhpd.inv hzlne
  have hqne : quadratic_form_inv (dyh_of c p) (zlast_of n M V h1 h2) ≠ 0 :=
    ne_of_gt hdenom
  have hr2 : radius q (dyh_of c p) (zlast_of n M V h1 h2) *
      radius q (dyh_of c p) (zlast_of n M V h1 h2) =
      -2 * Real.log q / quadratic_form_inv (dyh_of c p) (zlast_of n M V h1 h2) := by
    unfold radius
    rw [Real.mul_self_sqrt]
    refine div_nonneg ?_ (le_of_lt hdenom)
    have hlq : Real.log q ≤ 0 := Real.log_nonpos (le_of_lt hq0) hq1
    linarith
  have hlast : (⟨M - 1, by omega⟩ : Fin M).succ = Fin.last M := by
    ext
    simp only [Fin.val_succ, Fin.val_last]
    omega
  have hcol0 : (fun i => (comp_core n c w L q M V p h1 h2).1 i 0) =
      pᵀ *ᵥ (Fin.cons ((p *ᵥ ah c w L) 0) (ahy_of c w L p) : Fin (n + 1) → ℝ) :=
    funext fun i => comp_core_col0 n c w L q M V p h1 h2 i
  have hcollast : (fun i => (comp_core n c w L q M V p h1 h2).1 i (Fin.last M)) =
      pᵀ *ᵥ (Fin.cons ((p *ᵥ ah c w L) 0)
        (fun i2 => radius q (dyh_of c p) (zlast_of n M V h1 h2) *
          zlast_of n M V h1 h2 i2 + ahy_of c w L p i2) : Fin (n + 1) → ℝ) := by
    funext i
    rw [← hlast]
    exact comp_core_col_succ n c w L q M V p h1 h2 i ⟨M - 1, by omega⟩
  have hlik : (comp_core n c w L q M V p h1 h2).2 (Fin.last M) =
      mvn_pdf c (fun i => (comp_core n c w L q M V p h1 h2).1 i (Fin.last M)) /
        mvn_pdf c (fun i => (comp_core n c w L q M V p h1 h2).1 i 0) := rfl
  rw [hlik, mvn_pdf_ratio hdet, hcol0, hcollast]
  rw [quad_transform hcdet hpo, quad_transform hcdet hpo]
  have hvlast : (Fin.cons ((p *ᵥ ah c w L) 0)
      (fun i2 => radius q (dyh_of c p) (zlast_of n M V h1 h2) *
        zlast_of n M V h1 h2 i2 + ahy_of c w L p i2) : Fin (n + 1) → ℝ) =
      (Fin.cons ((p *ᵥ ah c w L) 0) (ahy_of c w L p) : Fin (n + 1) → ℝ) +
        radius q (dyh_of c p) (zlast_of n M V h1 h2) •
          (Fin.cons 0 (zlast_of n M V h1 h2) : Fin (n + 1) → ℝ) := by
    funext k
    refine Fin.cases ?_ (fun k2 => ?_) k
    · simp only [Pi.add_apply, Pi.smul_apply, Fin.cons_zero, smul_eq_mul, mul_zero,
        add_zero]
    · simp only [Pi.add_apply, Pi.smul_apply, Fin.cons_succ, smul_eq_mul]
      ring
  rw [hvlast, quad_add_expand]
  have hc1 : (Fin.cons 0 (zlast_of n M V h1 h2) : Fin (n + 1) → ℝ) ⬝ᵥ
      ((dy_of c p)⁻¹ *ᵥ
        (Fin.cons ((p *ᵥ ah c w L) 0) (ahy_of c w L p) : Fin (n + 1) → ℝ)) = 0 :=
    pad_cross_zero hp hw hwcw hDdet (ne_of_gt hd11p) _
  have hEsym : ((dy_of c p)⁻¹)ᵀ = (dy_of c p)⁻¹ := by
    rw [Matrix.transpose_nonsing_inv, transpose_eq_gen hD.isHermitian]
  have hc2 : (Fin.cons ((p *ᵥ ah c w L) 0) (ahy_of c w L p) : Fin (n + 1) → ℝ) ⬝ᵥ
      ((dy_of c p)⁻¹ *ᵥ (Fin.cons 0 (zlast_of n M V h1 h2) : Fin (n + 1) → ℝ)) = 0 := by
    rw [Matrix.dotProduct_mulVec, vecMul_eq_transpose_mulVec, hEsym, dotProduct_comm]
    exact hc1
  have hpadq : (Fin.cons 0 (zlast_of n M V h1 h2) : Fin (n + 1) → ℝ) ⬝ᵥ
      ((dy_of c p)⁻¹ *ᵥ (Fin.cons 0 (zlast_of n M V h1 h2) : Fin (n + 1) → ℝ)) =
      quadratic_form_inv (dyh_of c p) (zlast_of n M V h1 h2) :=
    quad_pad hsym0 hDdet hdyhdet (ne_of_gt hd11p) _
  rw [hc1, hc2, hpadq, hr2, mul_zero, add_zero, add_zero, div_mul_cancel₀ _ hqne]
  have hfin : ∀ A : ℝ, Real.exp ((A - (A + -2 * Real.log q)) / 2) = q := by
    intro A
    rw [show (A - (A + -2 * Real.log q)) / 2 = Real.log q from by ring]
    exact Real.exp_log hq0
  exact hfin _

theorem lik_at_eq {n : ℕ} {c : Matrix (Fin (n + 1)) (Fin (n + 1)) ℝ}
    {w : Fin (n + 1) → ℝ} {L q : ℝ} {M : ℕ} {V : Matrix (Fin n) (Fin n) ℝ}
    {p : Matrix (Fin (n + 1)) (Fin (n + 1)) ℝ}
    (hp : p_from_w w = some p) (h1 : 2 ≤ M) (h2 : M - 1 ≤ n) (j : Fin (M + 1)) :
    lik_at n c w L q M V j = some ((comp_core n c w L q M V p h1 h2).2 j) := by
  unfold lik_at
  rw [comp_scenarios_eq hp h1 h2]
  rfl

/-! ### Claim C3: the likelihood vector -/

/-- C3 (amended): for a positive-definite covariance matrix, a weight vector
with non-negative entries, a threshold `q ∈ (0, 1]` and an orthogonal
eigenvector matrix `V`, the likelihood vector returned by `comp_scenarios`
has entry `0` exactly equal to `1` and its last entry exactly equal to `q`.
The intermediate entries `1 .. M-1` are in general `q` raised to the power
`(z_j'Σ⁻¹z_j)/(z_M'Σ⁻¹z_M)`, which differs from `q` whenever the conditional
covariance is anisotropic on the simplex directions (see the
counterexample), so the claimed value `q` for every alternative scenario is
false. -/
theorem C3_likelihood {n : ℕ} {c : Matrix (Fin (n + 1)) (Fin (n + 1)) ℝ}
    {w : Fin (n + 1) → ℝ} {L q : ℝ} {M : ℕ} {V : Matrix (Fin n) (Fin n) ℝ}
    {S : Matrix (Fin (n + 1)) (Fin (M + 1)) ℝ} {l : Fin (M + 1) → ℝ}
    (hpd : c.PosDef) (hw : ∀ j, 0 ≤ w j) (hq0 : 0 < q) (hq1 : q ≤ 1)
    (hV : Vᵀ * V = 1)
    (hc : comp_scenarios n c w L q M V = some (S, l)) :
    l 0 = 1 ∧ l (Fin.last M) = q := by
  obtain ⟨p, h1, h2, hp, hS, hl⟩ := comp_scenarios_some hc
  constructor
  · rw [hl]
    exact div_self (ne_of_gt (mvn_pdf_pos hpd.det_pos _))
  · rw [hl]
    exact lik_last_eq hpd hw hq0 hq1 hV hp h1 h2

/-- C3, witness at `C = diag(1, 4, 4/3)`, `w = (1, 0, 0)`, `L = 1`,
`q = 1/2`, `M = 3`, `V = I`. -/
theorem C3_witness :
    (comp_core 2 (Matrix.diagonal ![1, 4, 4 / 3]) ![1, 0, 0] 1 (1 / 2) 3 1 1
        (by norm_num) (by norm_num)).2 0 = 1 ∧
      (comp_core 2 (Matrix.diagonal ![1, 4, 4 / 3]) ![1, 0, 0] 1 (1 / 2) 3 1 1
        (by norm_num) (by norm_num)).2 (Fin.last 3) = 1 / 2 := by
  have hpd : (Matrix.diagonal ![1, 4, 4 / 3] : Matrix (Fin 3) (Fin 3) ℝ).PosDef := by
    refine Matrix.PosDef.diagonal ?_
    intro i
    fin_cases i <;> norm_num
  have hw : ∀ j, (0 : ℝ) ≤ (![1, 0, 0] : Fin 3 → ℝ) j := by
    intro j
    fin_cases j <;> norm_num
  have hV : (1 : Matrix (Fin 2) (Fin 2) ℝ)ᵀ * 1 = 1 := by
    rw [Matrix.transpose_one, Matrix.one_mul]
  exact C3_likelihood hpd hw (by norm_num) (by norm_num) hV
    (comp_scenarios_eq EVPe3 (by norm_num) (by norm_num))

/-! ### A concrete evaluation of the likelihood of `Scenario_1` -/

theorem EV3_lik (h1 : 2 ≤ 3) (h2 : 3 - 1 ≤ 2) :
    (comp_core 2 (Matrix.diagonal ![1, 4, 4 / 3]) ![1, 0, 0] 1 (1 / 2) 3 1 1
        h1 h2).2 1 = Real.exp (-(2 * Real.log 2) / 5) := by
  have hdet3 : (0 : ℝ) < (Matrix.diagonal ![1, 4, 4 / 3] :
      Matrix (Fin 3) (Fin 3) ℝ).det := by
    rw [Matrix.det_diagonal]
    norm_num [Fin.prod_univ_three]
  have hmv : (Matrix.diagonal ![1, 4, 4 / 3] : Matrix (Fin 3) (Fin 3) ℝ) *ᵥ
      ![1, 0, 0] = ![1, 0, 0] := by
    funext b
    rw [Matrix.mulVec_diagonal]
    fin_cases b <;> norm_num
  have hah : ∀ a, ah (Matrix.diagonal ![1, 4, 4 / 3]) ![1, 0, 0] 1 a =
      (![(1 : ℝ), 0, 0]) a := by
    intro a
    unfold ah
    rw [hmv]
    have hval : (![(1 : ℝ), 0, 0]) ⬝ᵥ (![(1 : ℝ), 0, 0]) = 1 := by
      norm_num [Matrix.dotProduct, Fin.sum_univ_three]
    rw [hval]
    fin_cases a <;> norm_num
  have hdy : dy_of (Matrix.diagonal ![1, 4, 4 / 3]) (1 : Matrix (Fin 3) (Fin 3) ℝ) =
      Matrix.diagonal ![1, 4, 4 / 3] := by
    unfold dy_of
    rw [Matrix.transpose_one, Matrix.mul_one, Matrix.one_mul]
  have hay : ∀ i2 : Fin 2, ahy_of (Matrix.diagonal ![1, 4, 4 / 3]) ![1, 0, 0] 1
      (1 : Matrix (Fin 3) (Fin 3) ℝ) i2 = 0 := by
    intro i2
    unfold ahy_of dI1_of
    rw [hdy]
    rw [Matrix.diagonal_apply_ne _ (Fin.succ_ne_zero i2)]
    simp
  have hzm : ∀ (i : Fin 2) (j : Fin 3),
      zm_of 2 3 (1 : Matrix (Fin 2) (Fin 2) ℝ) h1 h2 i j = ssv_core 3 h1 i j := by
    intro i j
    show ∑ k : Fin 2, (1 : Matrix (Fin 2) (Fin 2) ℝ) i (Fin.castLE h2 k) *
        ssv_core 3 h1 k j = _
    rw [Fin.sum_univ_two,
      show Fin.castLE h2 (0 : Fin 2) = (0 : Fin 2) from rfl,
      show Fin.castLE h2 (1 : Fin 2) = (1 : Fin 2) from rfl]
    fin_cases i <;> simp [Matrix.one_apply]
  have hzl : zlast_of 2 3 (1 : Matrix (Fin 2) (Fin 2) ℝ) h1 h2 =
      ![-(1 / 2), -(Real.sqrt 3 / 2)] := by
    funext i
    show zm_of 2 3 (1 : Matrix (Fin 2) (Fin 2) ℝ) h1 h2 i ⟨2, by omega⟩ = _
    rw [hzm i ⟨2, by omega⟩, ssv_core_three h1 i ⟨2, by omega⟩]
    fin_cases i <;> norm_num
  have hdyh : dyh_of (Matrix.diagonal ![1, 4, 4 / 3]) (1 : Matrix (Fin 3) (Fin 3) ℝ) =
      Matrix.diagonal ![4, 4 / 3] := by
    funext i j
    unfold dyh_of dI1_of d11_of
    rw [hdy]
    fin_cases i <;> fin_cases j <;> simp [Matrix.diagonal_apply]
  have hdyhinv : (Matrix.diagonal ![4, 4 / 3] : Matrix (Fin 2) (Fin 2) ℝ)⁻¹ =
      Matrix.diagonal ![1 / 4, 3 / 4] := by
    apply Matrix.inv_eq_right_inv
    funext i j
    rw [Matrix.mul_apply]
    fin_cases i <;> fin_cases j <;>
      norm_num [Fin.sum_univ_two, Matrix.diagonal_apply, Matrix.one_apply, Fin.ext_iff]
  have hcinv : (Matrix.diagonal ![1, 4, 4 / 3] : Matrix (Fin 3) (Fin 3) ℝ)⁻¹ =
      Matrix.diagonal ![1, 1 / 4, 3 / 4] := by
    apply Matrix.inv_eq_right_inv
    funext i j
    rw [Matrix.mul_apply]
    fin_cases i <;> fin_cases j <;>
      norm_num [Fin.sum_univ_three, Matrix.diagonal_apply, Matrix.one_apply, Fin.ext_iff]
  have hs3 : Real.sqrt 3 * Real.sqrt 3 = 3 := Real.mul_self_sqrt (by norm_num)
  have hqfi : quadratic_form_inv
      (dyh_of (Matrix.diagonal ![1, 4, 4 / 3]) (1 : Matrix (Fin 3) (Fin 3) ℝ))
      (zlast_of 2 3 (1 : Matrix (Fin 2) (Fin 2) ℝ) h1 h2) = 5 / 8 := by
    unfold quadratic_form_inv
    rw [hdyh, hdyhinv, hzl]
    have hmv2 : (Matrix.diagonal ![1 / 4, 3 / 4] : Matrix (Fin 2) (Fin 2) ℝ) *ᵥ
        ![-(1 / 2), -(Real.sqrt 3 / 2)] =
        ![-(1 / 8), -(3 * (Real.sqrt 3 / 2) / 4)] := by
      funext b
      rw [Matrix.mulVec_diagonal]
      fin_cases b <;> · norm_num; try ring
    rw [hmv2]
    show ∑ i : Fin 2, (![-(1 / 2), -(Real.sqrt 3 / 2)] : Fin 2 → ℝ) i *
        (![-(1 / 8), -(3 * (Real.sqrt 3 / 2) / 4)] : Fin 2 → ℝ) i = 5 / 8
    rw [Fin.sum_univ_two]
    norm_num
    nlinarith [hs3]
  have hmlog : -2 * Real.log (1 / 2 : ℝ) = 2 * Real.log 2 := by
    rw [show (1 / 2 : ℝ) = 2⁻¹ from by norm_num, Real.log_inv]
    ring
  have hrr : radius (1 / 2)
      (dyh_of (Matrix.diagonal ![1, 4, 4 / 3]) (1 : Matrix (Fin 3) (Fin 3) ℝ))
      (zlast_of 2 3 (1 : Matrix (Fin 2) (Fin 2) ℝ) h1 h2) *
      radius (1 / 2)
      (dyh_of (Matrix.diagonal ![1, 4, 4 / 3]) (1 : Matrix (Fin 3) (Fin 3) ℝ))
      (zlast_of 2 3 (1 : Matrix (Fin 2) (Fin 2) ℝ) h1 h2) =
      16 * Real.log 2 / 5 := by
    unfold radius
    rw [hqfi, hmlog]
    have hnn : (0 : ℝ) ≤ 2 * Real.log 2 / (5 / 8) := by
      have hl := Real.log_nonneg (by norm_num : (1 : ℝ) ≤ 2)
      have : (0 : ℝ) ≤ 2 * Real.log 2 := by linarith
      positivity
    rw [Real.mul_self_sqrt hnn]
    ring
  have hcol0 : (fun i => (comp_core 2 (Matrix.diagonal ![1, 4, 4 / 3]) ![1, 0, 0] 1
      (1 / 2) 3 1 1 h1 h2).1 i 0) = ![1, 0, 0] := by
    funext i
    rw [comp_core_col0, Matrix.transpose_one, Matrix.one_mulVec]
    refine Fin.cases ?_ (fun i2 => ?_) i
    · rw [Fin.cons_zero, Matrix.one_mulVec, hah 0]
    · rw [Fin.cons_succ, hay i2]
      fin_cases i2 <;> norm_num
  have hcol1 : (fun i => (comp_core 2 (Matrix.diagonal ![1, 4, 4 / 3]) ![1, 0, 0] 1
      (1 / 2) 3 1 1 h1 h2).1 i 1) =
      ![1, radius (1 / 2)
        (dyh_of (Matrix.diagonal ![1, 4, 4 / 3]) (1 : Matrix (Fin 3) (Fin 3) ℝ))
        (zlast_of 2 3 (1 : Matrix (Fin 2) (Fin 2) ℝ) h1 h2), 0] := by
    funext i
    rw [show (1 : Fin 4) = (0 : Fin 3).succ from rfl, comp_core_col_succ,
      Matrix.transpose_one, Matrix.one_mulVec]
    refine Fin.cases ?_ (fun i2 => ?_) i
    · rw [Fin.cons_zero, Matrix.one_mulVec, hah 0]
      norm_num
    · rw [Fin.cons_succ, hay i2, hzm i2 0, ssv_core_three h1 i2 0]
      fin_cases i2 <;> norm_num
  have hlik : (comp_core 2 (Matrix.diagonal ![1, 4, 4 / 3]) ![1, 0, 0] 1 (1 / 2) 3 1 1
      h1 h2).2 1 =
      mvn_pdf (Matrix.diagonal ![1, 4, 4 / 3])
        (fun i => (comp_core 2 (Matrix.diagonal ![1, 4, 4 / 3]) ![1, 0, 0] 1 (1 / 2) 3
          1 1 h1 h2).1 i 1) /
      mvn_pdf (Matrix.diagonal ![1, 4, 4 / 3])
        (fun i => (comp_core 2 (Matrix.diagonal ![1, 4, 4 / 3]) ![1, 0, 0] 1 (1 / 2) 3
          1 1 h1 h2).1 i 0) := rfl
  rw [hlik, mvn_pdf_ratio hdet3, hcol0, hcol1]
  have hQ0 : (![(1 : ℝ), 0, 0]) ⬝ᵥ
      ((Matrix.diagonal ![1, 4, 4 / 3] : Matrix (Fin 3) (Fin 3) ℝ)⁻¹ *ᵥ
        ![(1 : ℝ), 0, 0]) = 1 := by
    rw [hcinv]
    show ∑ i : Fin 3, (![(1 : ℝ), 0, 0]) i *
      ((Matrix.diagonal ![1, 1 / 4, 3 / 4] : Matrix (Fin 3) (Fin 3) ℝ) *ᵥ
        ![(1 : ℝ), 0, 0]) i = 1
    simp only [Matrix.mulVec_diagonal]
    rw [Fin.sum_univ_three]
    norm_num
  rw [hQ0]
  have hQ1 : (![1, radius (1 / 2)
      (dyh_of (Matrix.diagonal ![1, 4, 4 / 3]) (1 : Matrix (Fin 3) (Fin 3) ℝ))
      (zlast_of 2 3 (1 : Matrix (Fin 2) (Fin 2) ℝ) h1 h2), 0] : Fin 3 → ℝ) ⬝ᵥ
      ((Matrix.diagonal ![1, 4, 4 / 3] : Matrix (Fin 3) (Fin 3) ℝ)⁻¹ *ᵥ
        ![1, radius (1 / 2)
          (dyh_of (Matrix.diagonal ![1, 4, 4 / 3]) (1 : Matrix (Fin 3) (Fin 3) ℝ))
          (zlast_of 2 3 (1 : Matrix (Fin 2) (Fin 2) ℝ) h1 h2), 0]) =
      1 + 16 * Real.log 2 / 5 / 4 := by
    rw [hcinv]
    show ∑ i : Fin 3, _ * ((Matrix.diagonal ![1, 1 / 4, 3 / 4] :
        Matrix (Fin 3) (Fin 3) ℝ) *ᵥ _) i = _
    simp only [Matrix.mulVec_diagonal]
    rw [Fin.sum_univ_three]
    norm_num
    rw [← hrr]
    ring
  rw [hQ1]
  congr 1
  ring

/-- C3, counterexample: for the valid input `C = diag(1, 4, 4/3)`,
`w = (1, 0, 0)`, `L = 1`, `q = 1/2`, `M = 3` (with the identity eigenvector
matrix, which is the sorted eigenvector matrix of the conditional covariance
`diag(4, 4/3)`), the relative likelihood of `Scenario_1` is
`exp(-(2 ln 2)/5) = 2^(-2/5) ≈ 0.757`, not `q = 1/2`. -/
theorem C3_counterexample :
    ∃ x : ℝ, lik_at 2 (Matrix.diagonal ![1, 4, 4 / 3]) ![1, 0, 0] 1 (1 / 2) 3 1 1 =
        some x ∧ x ≠ 1 / 2 := by
  refine ⟨Real.exp (-(2 * Real.log 2) / 5), ?_, ?_⟩
  · rw [lik_at_eq EVPe3 (by norm_num) (by norm_num) 1, EV3_lik]
  · intro heq
    have h2 : (1 / 2 : ℝ) = Real.exp (-Real.log 2) := by
      rw [Real.exp_neg, Real.exp_log (by norm_num : (0 : ℝ) < 2)]
      norm_num
    rw [h2] at heq
    have h3 := Real.exp_injective heq
    have hl2 : 0 < Real.log 2 := Real.log_pos (by norm_num)
    have h4 : -(2 * Real.log 2) / 5 = -Real.log 2 := h3
    linarith

end RST

end
